import Mathlib

/-!
Verification of the Marketing-Support-Tool ETL core against its
natural-language specification.

The development shallowly embeds the Python source
(`src/modules/sellerboard.py`, `src/modules/dsp_xnurta.py`,
`src/modules/ppc_xnurta.py`) in Lean:

* a pandas `DataFrame` is a row count together with an ordered list of
  named columns (labels may repeat, as they can in pandas);
* Python strings are Lean `String`s, with `.lower() / .strip() /
  substring containment / slicing` re-implemented so that they evaluate
  by kernel reduction;
* `datetime.date` is `PyDate`, compared in calendar order;
* `datetime.strptime` for each concrete format used by the source is
  implemented with the same lexical rules as CPython's `_strptime`
  regexes (two-digit alternatives tried before one-digit ones, whole
  string must be consumed, calendar validity enforced);
* Python dicts keyed by strings are association lists where insertion
  of an existing key replaces the value in place (`dictUpsert`).

All definitions are executable, so witnesses evaluate with `decide`.
-/

namespace MST

/-! ## Python-style character and string primitives -/

/-- ASCII / basic-Cyrillic lowering of one character, matching what
Python's `str.lower` does on the characters that occur in this
program's column names (`A`-`Z`, and Cyrillic `А`-`Я` U+0410–U+042F,
which lower by adding 0x20; all other characters are fixed). -/
def lowerChar (c : Char) : Char :=
  if 'A' ≤ c ∧ c ≤ 'Z' then Char.ofNat (c.toNat + 32)
  else if (0x0410 : Nat) ≤ c.toNat ∧ c.toNat ≤ 0x042F then Char.ofNat (c.toNat + 0x20)
  else c

/-- ASCII uppering of one character (model of `str.upper` on the ASCII
inputs exercised here). -/
def upperChar (c : Char) : Char :=
  if 'a' ≤ c ∧ c ≤ 'z' then Char.ofNat (c.toNat - 32) else c

/-- Model of Python `str.lower()`. -/
def pyLower (s : String) : String := ⟨s.data.map lowerChar⟩

/-- Model of Python `str.upper()`. -/
def pyUpper (s : String) : String := ⟨s.data.map upperChar⟩

/-- Python whitespace recognized by `str.strip()` (ASCII part). -/
def isPySpace (c : Char) : Bool :=
  c == ' ' || c == '\t' || c == '\n' || c == '\r' || c == '\x0b' || c == '\x0c'

/-- Model of Python `str.strip()`. -/
def pyStrip (s : String) : String :=
  ⟨((s.data.dropWhile isPySpace).reverse.dropWhile isPySpace).reverse⟩

/-- List-of-characters prefix test. -/
def isPref : List Char → List Char → Bool
  | [], _ => true
  | _ :: _, [] => false
  | a :: as, b :: bs => a == b && isPref as bs

/-- Contiguous-sublist test on characters. -/
def hasSub : List Char → List Char → Bool
  | [], needle => isPref needle []
  | h :: t, needle => isPref needle (h :: t) || hasSub t needle

/-- Model of Python `needle in hay` on strings. -/
def pyContains (hay needle : String) : Bool := hasSub hay.data needle.data

/-- Model of Python slicing `s[:n]`. -/
def pySlice (s : String) (n : Nat) : String := ⟨s.data.take n⟩

/-! ## Dates -/

/-- A `datetime.date`: year, month, day. -/
structure PyDate where
  y : Nat
  m : Nat
  d : Nat
  deriving DecidableEq, Repr

/-- Numeric encoding giving the calendar order on valid dates. -/
def PyDate.code (dt : PyDate) : Nat := (dt.y * 100 + dt.m) * 100 + dt.d

/-- Date comparison (Python `date.__ge__` etc. on valid dates). -/
def PyDate.le (a b : PyDate) : Bool := a.code ≤ b.code

def isLeap (y : Nat) : Bool :=
  y % 4 == 0 && (y % 100 != 0 || y % 400 == 0)

def daysInMonth (y m : Nat) : Nat :=
  if m == 1 || m == 3 || m == 5 || m == 7 || m == 8 || m == 10 || m == 12 then 31
  else if m == 4 || m == 6 || m == 9 || m == 11 then 30
  else if m == 2 then (if isLeap y then 29 else 28)
  else 0

/-- `datetime`'s constructor validity check (`MINYEAR = 1`,
`MAXYEAR = 9999`, day must fit the month). -/
def mkValidDate (y m d : Nat) : Option PyDate :=
  if 1 ≤ y ∧ y ≤ 9999 ∧ 1 ≤ m ∧ m ≤ 12 ∧ 1 ≤ d ∧ d ≤ daysInMonth y m then
    some ⟨y, m, d⟩
  else none

/-! ## strptime

CPython's `_strptime` compiles each directive to a regex:
`%m ↦ 1[0-2]|0[1-9]|[1-9]`, `%d ↦ 3[01]|[12]\d|0[1-9]|[1-9]`,
`%Y ↦ \d\d\d\d`, and requires the whole string to match; the resulting
numbers are then passed to `datetime`, which enforces calendar
validity.  The two-digit alternatives come first, so a parser that
tries "two digits, then one digit" with the documented value ranges is
exact. -/

def digitVal (c : Char) : Option Nat :=
  if '0' ≤ c ∧ c ≤ '9' then some (c.toNat - 48) else none

/-- The candidate `(value, rest)` parses of a 1–2-digit field whose
two-digit alternatives cover values `1..hi` and whose one-digit
alternative covers `1..9`, in regex alternation order. -/
def fieldCandidates (hi : Nat) : List Char → List (Nat × List Char)
  | c₁ :: c₂ :: rest =>
    (match digitVal c₁, digitVal c₂ with
     | some v₁, some v₂ =>
       if 1 ≤ v₁ * 10 + v₂ ∧ v₁ * 10 + v₂ ≤ hi then [(v₁ * 10 + v₂, rest)] else []
     | _, _ => []) ++
    (match digitVal c₁ with
     | some v₁ => if 1 ≤ v₁ then [(v₁, c₂ :: rest)] else []
     | none => [])
  | [c₁] =>
    (match digitVal c₁ with
     | some v₁ => if 1 ≤ v₁ then [(v₁, [])] else []
     | none => [])
  | [] => []

/-- Exactly four digits (`%Y`). -/
def year4 : List Char → Option (Nat × List Char)
  | a :: b :: c :: d :: rest =>
    match digitVal a, digitVal b, digitVal c, digitVal d with
    | some va, some vb, some vc, some vd =>
      some (((va * 10 + vb) * 10 + vc) * 10 + vd, rest)
    | _, _, _, _ => none
  | _ => none

/-- Exactly one literal separator character. -/
def litChar (sep : Char) : List Char → Option (List Char)
  | c :: rest => if c == sep then some rest else none
  | [] => none

/-- Try the field candidates in order against a continuation
(regex backtracking over the 1–2-digit alternation). -/
def tryCands (cands : List (Nat × List Char)) (k : Nat → List Char → Option PyDate) :
    Option PyDate :=
  match cands with
  | [] => none
  | (v, rest) :: more =>
    match k v rest with
    | some dt => some dt
    | none => tryCands more k

/-- `strptime(s, "%m<sep>%d<sep>%Y")`. -/
def strptimeMDY (sep : Char) (s : String) : Option PyDate :=
  tryCands (fieldCandidates 12 s.data) fun m r₁ =>
    match litChar sep r₁ with
    | none => none
    | some r₂ =>
      tryCands (fieldCandidates 31 r₂) fun d r₃ =>
        match litChar sep r₃ with
        | none => none
        | some r₄ =>
          match year4 r₄ with
          | some (y, []) => mkValidDate y m d
          | _ => none

/-- `strptime(s, "%d<sep>%m<sep>%Y")`. -/
def strptimeDMY (sep : Char) (s : String) : Option PyDate :=
  tryCands (fieldCandidates 31 s.data) fun d r₁ =>
    match litChar sep r₁ with
    | none => none
    | some r₂ =>
      tryCands (fieldCandidates 12 r₂) fun m r₃ =>
        match litChar sep r₃ with
        | none => none
        | some r₄ =>
          match year4 r₄ with
          | some (y, []) => mkValidDate y m d
          | _ => none

/-- `strptime(s, "%Y-%m-%d")`. -/
def strptimeYMD (s : String) : Option PyDate :=
  match year4 s.data with
  | none => none
  | some (y, r₁) =>
    match litChar '-' r₁ with
    | none => none
    | some r₂ =>
      tryCands (fieldCandidates 12 r₂) fun m r₃ =>
        match litChar '-' r₃ with
        | none => none
        | some r₄ =>
          tryCands (fieldCandidates 31 r₄) fun d r₅ =>
            match r₅ with
            | [] => mkValidDate y m d
            | _ => none

/-- `strptime(s, "%Y%m%d")` (used on the 8-digit regex captures). -/
def strptimeYMD8 (s : String) : Option PyDate :=
  match year4 s.data with
  | none => none
  | some (y, r₁) =>
    tryCands (fieldCandidates 12 r₁) fun m r₂ =>
      tryCands (fieldCandidates 31 r₂) fun d r₃ =>
        match r₃ with
        | [] => mkValidDate y m d
        | _ => none

/-! ## DataFrame model

A pandas DataFrame is a row count (the index length) plus an ordered
list of labelled columns.  Labels may repeat — pandas permits duplicate
column labels, and `df[list_of_labels]` then returns every matching
column, a behaviour the proofs below track faithfully. -/

/-- A cell value: missing (`NaN`/`pd.NA`/`NaT`), a string, or a
date-like value. -/
inductive Cell where
  | na
  | str (s : String)
  | date (d : PyDate)
  deriving DecidableEq, Repr

/-- A pandas DataFrame: row count plus ordered, possibly-repeating
labelled columns. -/
structure DataFrame where
  nrows : Nat
  cols : List (String × List Cell)
  deriving DecidableEq, Repr

/-- The column labels, in order. -/
def DataFrame.names (df : DataFrame) : List String := df.cols.map Prod.fst

/-- `df[labels]` where `labels` is a list: for each requested label, all
columns carrying it, in frame order (pandas duplicate-label selection). -/
def selectCols (cols : List (String × List Cell)) (names : List String) :
    List (String × List Cell) :=
  names.flatMap fun n => cols.filter fun p => p.1 == n

/-- Whether some column carries the label (`label in df.columns`). -/
def hasCol (cols : List (String × List Cell)) (n : String) : Bool :=
  cols.any fun p => p.1 == n

/-- The first column carrying the label (`df[label]` when unique). -/
def getColFirst (cols : List (String × List Cell)) (n : String) :
    Option (List Cell) :=
  (cols.find? fun p => p.1 == n).map Prod.snd

/-! ## Python dict as an association list -/

/-- Insert into a Python dict: an existing key keeps its position and
gets the new value, a fresh key is appended. -/
def dictUpsert (m : List (String × String)) (k v : String) :
    List (String × String) :=
  if (m.lookup k).isSome then
    m.map fun p => if p.1 == k then (k, v) else p
  else m ++ [(k, v)]

/-- Build a dict from a list of key-value pairs, later pairs
overwriting earlier values (dict comprehension semantics). -/
def buildDict (l : List (String × String)) : List (String × String) :=
  l.foldl (fun m p => dictUpsert m p.1 p.2) []

/-! ## Sellerboard: `SBProcessor._standardize_columns`
(src/modules/sellerboard.py lines 34-40 and 81-114). -/

/-- `SBProcessor.standard_columns`.  The `'Refund сost'` entry really
contains CYRILLIC SMALL LETTER ES (U+0441) in place of the Latin `c`,
exactly as in the source. -/
def standardColumns : List String :=
  ["Product", "ASIN", "Date", "SKU", "Units", "Refunds", "Sales",
   "Promo", "Ads", "Sponsored products (PPC)", "% Refunds",
   "Refund сost", "Amazon fees", "Cost of Goods", "Gross profit",
   "Net profit", "Estimated payout", "Real ACOS", "Sessions",
   "VAT", "Shipping"]

/-- `std_col_map = {col.lower(): col for col in self.standard_columns}`. -/
def stdColMap : List (String × String) :=
  buildDict (standardColumns.map fun c => (pyLower c, c))

/-- One iteration of the `for std_col_lower, std_col in
std_col_map.items()` loop building `column_mapping`. -/
def mappingStep (dfMap : List (String × String))
    (cmap : List (String × String)) (e : String × String) :
    List (String × String) :=
  match dfMap.lookup e.1 with
  | some dfCol => dictUpsert cmap dfCol e.2
  | none =>
    if pyContains e.1 "sponsored" && pyContains e.1 "ppc" then
      match dfMap.find? (fun p => pyContains p.1 "sponsored" && pyContains p.1 "ppc") with
      | some p => dictUpsert cmap p.2 e.2
      | none => cmap
    else if pyContains e.1 "refund" && pyContains e.1 "cost" then
      match dfMap.find? (fun p => pyContains p.1 "refund" &&
              (pyContains p.1 "cost" || pyContains p.1 "сost")) with
      | some p => dictUpsert cmap p.2 e.2
      | none => cmap
    else cmap

/-- The `column_mapping` dict computed by `_standardize_columns` from
the df-side lowercase map. -/
def columnMapping (dfMap : List (String × String)) : List (String × String) :=
  stdColMap.foldl (mappingStep dfMap) []

/-- `df.columns = [str(c).strip() for c in df.columns]`. -/
def strippedCols (df : DataFrame) : List (String × List Cell) :=
  df.cols.map fun p => (pyStrip p.1, p.2)

/-- `df_col_map = {col.lower(): col for col in df.columns}`. -/
def sbDfMap (df : DataFrame) : List (String × String) :=
  buildDict ((strippedCols df).map fun p => (pyLower p.1, p.1))

/-- `df.rename(columns=column_mapping)`: every column whose (stripped)
label is a key of the mapping gets the mapped label. -/
def sbRenamed (df : DataFrame) : List (String × List Cell) :=
  (strippedCols df).map fun p =>
    (((columnMapping (sbDfMap df)).lookup p.1).getD p.1, p.2)

/-- `available_columns` / `df_filtered` / the missing-column fill of
`_standardize_columns`. -/
def sbAvailable (df : DataFrame) : List String :=
  standardColumns.filter fun c => hasCol (sbRenamed df) c

def sbWithMissing (df : DataFrame) : List (String × List Cell) :=
  let filtered := selectCols (sbRenamed df) (sbAvailable df)
  filtered ++
    (standardColumns.filter fun c => !hasCol filtered c).map
      fun c => (c, List.replicate df.nrows Cell.na)

/-- `SBProcessor._standardize_columns` (lines 81-114): strip the
labels, build the lowercase maps, compute `column_mapping`, rename,
select the available canonical columns, append the missing ones filled
with `pd.NA`, and select in canonical order. -/
def standardizeColumns (df : DataFrame) : DataFrame :=
  ⟨df.nrows, selectCols (sbWithMissing df) standardColumns⟩

/-! ## Filename date extraction

`re.search` scans the haystack left to right and yields the leftmost
match; the patterns used by the three modules are fixed-shape digit
patterns, modelled as at-position matchers driven by a scanner. -/

/-- Leftmost match of an at-position matcher (`re.search`). -/
def scanFirst (p : List Char → Option (List Char)) : List Char → Option (List Char)
  | [] => p []
  | c :: rest =>
    match p (c :: rest) with
    | some tok => some tok
    | none => scanFirst p rest

/-- At-position match of `\d{2}_\d{2}_\d{4}`, returning the matched
token. -/
def matchDMYtoken : List Char → Option (List Char)
  | a :: b :: u₁ :: c :: d :: u₂ :: e :: f :: g :: h :: _ =>
    if a.isDigit && b.isDigit && u₁ == '_' && c.isDigit && d.isDigit &&
        u₂ == '_' && e.isDigit && f.isDigit && g.isDigit && h.isDigit then
      some [a, b, u₁, c, d, u₂, e, f, g, h]
    else none
  | _ => none

/-- At-position match of `\d{8}`. -/
def matchYMD8token : List Char → Option (List Char)
  | a :: b :: c :: d :: e :: f :: g :: h :: _ =>
    if a.isDigit && b.isDigit && c.isDigit && d.isDigit &&
        e.isDigit && f.isDigit && g.isDigit && h.isDigit then
      some [a, b, c, d, e, f, g, h]
    else none
  | _ => none

/-- At-position match of `\d{4}-\d{2}-\d{2}`. -/
def matchISOtoken : List Char → Option (List Char)
  | a :: b :: c :: d :: s₁ :: e :: f :: s₂ :: g :: h :: _ =>
    if a.isDigit && b.isDigit && c.isDigit && d.isDigit && s₁ == '-' &&
        e.isDigit && f.isDigit && s₂ == '-' && g.isDigit && h.isDigit then
      some [a, b, c, d, s₁, e, f, s₂, g, h]
    else none
  | _ => none

/-- `.*\.xlsx` continuation: some later position (with no intervening
newline, since `.` does not match one) starts with `.xlsx`. -/
def tailDotXlsx : List Char → Bool
  | [] => false
  | c :: t => isPref ".xlsx".data (c :: t) || (c != '\n' && tailDotXlsx t)

/-- At-position match of `SA_Campaign_List_(\d{8})_\d{8}_.*\.xlsx`,
returning capture group 1. -/
def matchSACampaign (cs : List Char) : Option (List Char) :=
  if isPref "SA_Campaign_List_".data cs then
    match cs.drop 17 with
    | a :: b :: c :: d :: e :: f :: g :: h :: u₁ :: rest =>
      if a.isDigit && b.isDigit && c.isDigit && d.isDigit && e.isDigit &&
          f.isDigit && g.isDigit && h.isDigit && u₁ == '_' then
        match rest with
        | a' :: b' :: c' :: d' :: e' :: f' :: g' :: h' :: u₂ :: rest' =>
          if a'.isDigit && b'.isDigit && c'.isDigit && d'.isDigit &&
              e'.isDigit && f'.isDigit && g'.isDigit && h'.isDigit &&
              u₂ == '_' && tailDotXlsx rest' then
            some [a, b, c, d, e, f, g, h]
          else none
        | _ => none
      else none
    | _ => none
  else none

/-- Result of `SBProcessor.extract_date_from_filename`: a parsed date,
`None` when the regex finds nothing, or an uncaught `strptime`
exception (the call is not wrapped in `try`). -/
inductive SBExtract where
  | date (d : PyDate)
  | noMatch
  | err
  deriving DecidableEq, Repr

/-- `SBProcessor.extract_date_from_filename` (sellerboard.py 74-79):
first `\d{2}_\d{2}_\d{4}` via `re.search`, parsed with `%d_%m_%Y`. -/
def sbExtractDate (filename : String) : SBExtract :=
  match scanFirst matchDMYtoken filename.data with
  | none => .noMatch
  | some tok =>
    match strptimeDMY '_' ⟨tok⟩ with
    | some d => .date d
    | none => .err

/-- `DSPProcessor.extract_date_from_filename` (dsp_xnurta.py 105-117):
first `\d{8}` parsed with `%Y%m%d`; parse failure is caught and yields
`None`, like a missing match. -/
def dspExtractDate (filename : String) : Option PyDate :=
  match scanFirst matchYMD8token filename.data with
  | none => none
  | some tok => strptimeYMD8 ⟨tok⟩

/-- `PPCProcessor.extract_date_from_filename` (ppc_xnurta.py 74-97):
four patterns tried in order, the captured token parsed as
`%d_%m_%Y` / `%Y-%m-%d` / `%Y%m%d` according to its separators; a
parse failure falls through to the next pattern, and if nothing
succeeds the CURRENT DATE (`today`, passed explicitly here) is
returned from inside the extractor. -/
def ppcExtractDate (today : PyDate) (filename : String) : PyDate :=
  let cs := filename.data
  let parseTok : List Char → Option PyDate := fun tok =>
    if tok.contains '_' then strptimeDMY '_' ⟨tok⟩
    else if tok.contains '-' then strptimeYMD ⟨tok⟩
    else strptimeYMD8 ⟨tok⟩
  let attempts : List (Option (List Char)) :=
    [scanFirst matchSACampaign cs, scanFirst matchYMD8token cs,
     scanFirst matchDMYtoken cs, scanFirst matchISOtoken cs]
  match attempts.findSome? (fun o => o.bind parseTok) with
  | some d => d
  | none => today

/-! ## Sellerboard: existing-row count, delete-from-date, append plan
(sellerboard.py 199-207, 209-277, 282-359). -/

/-- `get_existing_sheet_data_count`: count the non-blank cells of the
first column (`val and val.strip()`), subtract the header, clamp at 0
(`max(0, ...)`; `Nat` subtraction clamps identically). -/
def getExistingSheetDataCount (firstCol : List String) : Nat :=
  (firstCol.filter fun v => !(v == "") && !(pyStrip v == "")).length - 1

/-- `parse_date_fast` (lines 232-242): empty/blank string is `None`,
otherwise the four formats `%m/%d/%Y`, `%d/%m/%Y`, `%Y-%m-%d`,
`%m-%d-%Y` are tried in sequence on the stripped string. -/
def parseDateFast (s : String) : Option PyDate :=
  if s == "" || pyStrip s == "" then none
  else
    let t := pyStrip s
    match strptimeMDY '/' t with
    | some d => some d
    | none =>
      match strptimeDMY '/' t with
      | some d => some d
      | none =>
        match strptimeYMD t with
        | some d => some d
        | none => strptimeMDY '-' t

/-- Whether `delete_data_from_date` drops a data row: the row must
reach the date column, its cell must parse under some configured
format, and the parsed date must be on or after the cutoff. -/
def sbRowMarked (idx : Nat) (fromDate : PyDate) (row : List String) : Bool :=
  decide (idx < row.length) &&
    (match parseDateFast (row.getD idx "") with
     | some dt => fromDate.le dt
     | none => false)

/-- `delete_data_from_date` (lines 209-277) on the sheet contents:
returns the deleted-row count and the resulting sheet.  With at most a
header nothing happens; a missing `Date` header column leaves the
sheet untouched; rows are partitioned by `sbRowMarked`; when nothing
is marked the sheet is not rewritten. -/
def sbDeleteFromDate (allData : List (List String)) (fromDate : PyDate) :
    Nat × List (List String) :=
  if allData.length ≤ 1 then (0, allData)
  else
    match allData with
    | [] => (0, allData)
    | headers :: dataRows =>
      match headers.findIdx? (fun h => h == "Date") with
      | none => (0, allData)
      | some idx =>
        let kept := dataRows.filter fun r => !sbRowMarked idx fromDate r
        let deleted := (dataRows.filter (sbRowMarked idx fromDate)).length
        if 0 < deleted then (deleted, headers :: kept) else (0, allData)

/-- Google Sheets API chunk limit used by `append_to_sheets`. -/
def sbChunkSize : Nat := 5000

/-- The row ranges of the chunked `worksheet.update` calls
(lines 336-359): one range when the data fits in a chunk, otherwise
one per `range(0, len(values), chunk_size)` slice. -/
def sbChunkWrites (startRow n : Nat) : List (Nat × Nat) :=
  if n ≤ sbChunkSize then [(startRow, startRow + n - 1)]
  else
    (List.range ((n + sbChunkSize - 1) / sbChunkSize)).map fun j =>
      let i := j * sbChunkSize
      (startRow + i, startRow + i + min sbChunkSize (n - i) - 1)

/-- The geometry computed by `append_to_sheets` (lines 296-305):
start row, end row, worksheet row capacity after the
`add_rows` grow-before-write step, and the chunk ranges written. -/
structure AppendPlan where
  startRow : Nat
  endRow : Nat
  newRowCount : Nat
  writes : List (Nat × Nat)
  deriving DecidableEq, Repr

/-- `append_to_sheets` range arithmetic: `existing_rows` from the first
column, `start_row = max(existing_rows + 2, 2)`,
`end_row = start_row + len(df) - 1`, capacity grown to
`end_row + 1` when short. -/
def sbAppendPlan (firstCol : List String) (currentRowCount n : Nat) : AppendPlan :=
  let existingRows := getExistingSheetDataCount firstCol
  let startRow := max (existingRows + 2) 2
  let endRow := startRow + n - 1
  let totalNeeded := endRow + 1
  let newCap :=
    if currentRowCount < totalNeeded then
      currentRowCount + (totalNeeded - currentRowCount)
    else currentRowCount
  ⟨startRow, endRow, newCap, sbChunkWrites startRow n⟩

/-! ## PPC: merge with last-wins dedup (ppc_xnurta.py 242-279). -/

/-- A normalized PPC row: the three merge-key fields, the `Sales`
magnitude used as the secondary sort key, and the remaining canonical
fields. -/
structure PPCRow where
  asin : String
  date : PyDate
  campaign : String
  sales : Int
  rest : List Cell
  deriving DecidableEq, Repr

/-- The merge key `['ASIN', 'Date', 'Campaign']`. -/
def ppcKey (r : PPCRow) : String × PyDate × String := (r.asin, r.date, r.campaign)

/-- `drop_duplicates(subset=['ASIN','Date','Campaign'], keep='last')`:
a row survives iff no later row carries the same key; survivors keep
their original relative order. -/
def dedupKeepLast : List PPCRow → List PPCRow
  | [] => []
  | r :: t =>
    if t.any (fun x => decide (ppcKey x = ppcKey r)) then dedupKeepLast t
    else r :: dedupKeepLast t

/-- `sort_values(['Date','Sales'], ascending=[True,False])` ordering;
pandas multi-key sorts are stable, as is `List.insertionSort`. -/
def ppcSortLE (a b : PPCRow) : Prop :=
  a.date.code < b.date.code ∨ (a.date.code = b.date.code ∧ b.sales ≤ a.sales)

instance : DecidableRel ppcSortLE := fun a b => by
  unfold ppcSortLE; infer_instance

/-- The merge step of `PPCProcessor.process_files` (lines 254-275):
keep the non-empty per-file tables, concatenate, dedup last-wins on
the merge key, sort by date ascending then sales descending. -/
def ppcMergeTables (tables : List (List PPCRow)) : List PPCRow :=
  let nonEmpty := tables.filter fun t => !t.isEmpty
  if nonEmpty.isEmpty then []
  else List.insertionSort ppcSortLE (dedupKeepLast nonEmpty.flatten)

/-! ## Sellerboard: batch combine (sellerboard.py 139-197).

`process_files` gathers per-file frames in `as_completed` order — the
worker COMPLETION order — then keeps the non-empty ones, concatenates,
and stable-sorts by `Date` ascending / `Sales` descending.  There is
no dedup step in this module. -/

/-- A normalized Sellerboard row: the two sort keys and the remaining
canonical fields. -/
structure SBRow where
  date : PyDate
  sales : Int
  rest : List Cell
  deriving DecidableEq, Repr

/-- `sort_values(["Date", "Sales"], ascending=[True, False])`
ordering. -/
def sbRowLE (a b : SBRow) : Prop :=
  a.date.code < b.date.code ∨ (a.date.code = b.date.code ∧ b.sales ≤ a.sales)

instance : DecidableRel sbRowLE := fun a b => by
  unfold sbRowLE; infer_instance

/-- The combine step of `SBProcessor.process_files` (lines 165-197)
applied to the per-file tables in the order the workers completed:
filter out empties, concatenate in that order, stable-sort. -/
def sbCombine (tablesInCompletionOrder : List (List SBRow)) : List SBRow :=
  let valid := tablesInCompletionOrder.filter fun t => !t.isEmpty
  if valid.isEmpty then []
  else List.insertionSort sbRowLE valid.flatten

/-! ## DSP: `process_single_file_content` (dsp_xnurta.py 119-190). -/

/-- The DSP canonical column list (`required_columns`,
dsp_xnurta.py 169-180). -/
def requiredColumnsDSP : List String :=
  ["ASIN", "Creative", "Date", "Total cost", "Total product sales", "eCPM",
   "Total CPDPV", "Total ROAS", "Total percent of purchases new-to-brand",
   "CTR", "Total DPVR", "Total ATCR", "Total eCPP", "ROAS", "VCR",
   "Impressions", "Click-throughs", "Total DPV", "Total ATC", "Total purchase",
   "Total units sold", "Branded Searches", "eCPC", "DPV", "DPVR", "CPDPV",
   "ATC", "ATCR", "Total CPATC", "CPATC", "Product sales",
   "Total new-to-brand product sales", "New-to-brand product Sales",
   "Total new-to-brand ROAS", "New-to-brand return on advertising spend",
   "Purchases", "Total new-to-brand purchases", "New-to-brand purchases",
   "Total Purchase Rate"]

/-- `astype(str)` on a cell: `NaN` prints as `"nan"`, strings pass
through, timestamps print in pandas' default form. -/
def cellStr : Cell → String
  | .na => "nan"
  | .str s => s
  | .date d =>
    toString d.y ++ "-" ++ toString d.m ++ "-" ++ toString d.d ++ " 00:00:00"

/-- The ASIN derivation applied to one `Creative` cell:
`df["Creative"].astype(str).str[:10].str.upper()`. -/
def deriveASIN (c : Cell) : Cell := Cell.str (pyUpper (pySlice (cellStr c) 10))

/-- The first mutation of `process_single_file_content`: drop the
`Creative Asset` column when present. -/
def dspBaseCols (df : DataFrame) : List (String × List Cell) :=
  if hasCol df.cols "Creative Asset" then
    df.cols.filter fun p => p.1 != "Creative Asset"
  else df.cols

/-- The second mutation: drop the last (totals) row when more than one
row was read (`df.iloc[:-1, :]`), keeping a single row whole. -/
def dspPrep (df : DataFrame) : Nat × List (String × List Cell) :=
  if 1 < df.nrows then
    (df.nrows - 1, (dspBaseCols df).map fun p => (p.1, p.2.dropLast))
  else (df.nrows, dspBaseCols df)

/-- The column assembly of `process_single_file_content`: prepend the
derived `ASIN` column (`df.insert(0, ...)`), splice the `Date` column
in right after `Creative` (`pd.concat([before, date_series, after])`),
append the missing canonical columns filled with `np.nan`. -/
def dspAssemble (cols₁ : List (String × List Cell)) (creativeVals : List Cell)
    (nrows₁ : Nat) (dateVal : Cell) : List (String × List Cell) :=
  let cols₂ : List (String × List Cell) := ("ASIN", creativeVals.map deriveASIN) :: cols₁
  let dateCol := List.replicate nrows₁ dateVal
  let cols₃ :=
    match cols₂.findIdx? (fun p => p.1 == "Creative") with
    | some ci => cols₂.take (ci + 1) ++ [("Date", dateCol)] ++ cols₂.drop (ci + 1)
    | none => cols₂ ++ [("Date", dateCol)]
  cols₃ ++
    (requiredColumnsDSP.filter fun c => !hasCol cols₃ c).map
      fun c => (c, List.replicate nrows₁ Cell.na)

/-- `DSPProcessor.process_single_file_content` on an already-read
frame.  `.error` stands for the `ValueError`s the Python raises: empty
input, missing `Creative` column, duplicate `Creative` labels (the
`.str` accessor fails on the DataFrame such a selection returns), or a
pre-existing `ASIN` column (`df.insert` refuses duplicates). -/
def dspProcessSingleFileContent (df : DataFrame) (fileDate : Option PyDate) :
    Except String DataFrame :=
  if df.nrows == 0 || df.cols.isEmpty then .error "contains no data"
  else if !hasCol (dspPrep df).2 "Creative" then .error "Creative column not found"
  else if 1 < ((dspPrep df).2.filter fun p => p.1 == "Creative").length then
    .error "duplicate Creative labels"
  else if hasCol (dspPrep df).2 "ASIN" then .error "cannot insert ASIN, already exists"
  else
    match getColFirst (dspPrep df).2 "Creative" with
    | none => .error "Creative column not found"
    | some creativeVals =>
      let dateVal : Cell := match fileDate with | some d => .date d | none => .na
      .ok ⟨(dspPrep df).1,
        selectCols (dspAssemble (dspPrep df).2 creativeVals (dspPrep df).1 dateVal)
          requiredColumnsDSP⟩

/-! ## General list lemmas -/

theorem length_filter_add_not {α : Type} (p : α → Bool) (l : List α) :
    (l.filter p).length + (l.filter fun x => !p x).length = l.length := by
  induction l with
  | nil => rfl
  | cons a t ih =>
    by_cases h : p a = true <;> simp [List.filter_cons, h, ← ih] <;> omega

theorem filter_eq_self_of_count_zero {α : Type} {p : α → Bool} {l : List α}
    (h : (l.filter p).length = 0) : l.filter (fun x => !p x) = l := by
  have hnil : l.filter p = [] := List.length_eq_zero.mp h
  have h' : ∀ a ∈ l, (!p a) = true := by
    intro a ha
    by_contra hc
    have hpa : p a = true := by
      cases hv : p a
      · simp [hv] at hc
      · rfl
    have : a ∈ l.filter p := List.mem_filter.mpr ⟨ha, hpa⟩
    simp [hnil] at this
  exact List.filter_eq_self.mpr h'

/-! ## C6: delete-from-date -/

/-- `sbRowMarked` unfolded to the specification's reading: the row
reaches the date column, the cell parses under one of the configured
formats, and the parsed date is on or after the cutoff. -/
theorem sbRowMarked_iff (idx : Nat) (d : PyDate) (row : List String) :
    sbRowMarked idx d row = true ↔
      idx < row.length ∧
        ∃ dt, parseDateFast (row.getD idx "") = some dt ∧ d.le dt = true := by
  unfold sbRowMarked
  cases h : parseDateFast (row.getD idx "") <;>
    simp [h]

/-- Closed form of `sbDeleteFromDate` once the `Date` column exists:
keep exactly the unmarked rows, report the marked count. -/
theorem sbDeleteFromDate_eq (headers : List String) (dataRows : List (List String))
    (fromDate : PyDate) (idx : Nat)
    (hidx : headers.findIdx? (fun h => h == "Date") = some idx) :
    sbDeleteFromDate (headers :: dataRows) fromDate =
      ((dataRows.filter (sbRowMarked idx fromDate)).length,
       headers :: dataRows.filter fun r => !sbRowMarked idx fromDate r) := by
  unfold sbDeleteFromDate
  cases dataRows with
  | nil => rfl
  | cons r t =>
    rw [if_neg (by simp : ¬ ((headers :: r :: t : List (List String))).length ≤ 1)]
    simp only [hidx]
    by_cases hdel : 0 < ((r :: t).filter (sbRowMarked idx fromDate)).length
    · simp [hdel]
    · push_neg at hdel
      have h0 : ((r :: t).filter (sbRowMarked idx fromDate)).length = 0 := by omega
      simp [h0, filter_eq_self_of_count_zero h0]

/-- C6: `delete_data_from_date` with cutoff `d` removes exactly the data
rows whose date cell parses, under one of the configured formats tried
in sequence, to a date on or after `d`; rows parsing strictly before
`d` and rows whose cell parses under no format (or that do not reach
the date column) are kept, in order, and the header row survives.  The
deleted count plus the kept count is the original row count. -/
theorem sb_delete_from_date_spec (headers : List String)
    (dataRows : List (List String)) (fromDate : PyDate) (idx : Nat)
    (hidx : headers.findIdx? (fun h => h == "Date") = some idx) :
    ∃ kept, (sbDeleteFromDate (headers :: dataRows) fromDate).2 = headers :: kept ∧
      (∀ row ∈ dataRows,
        (row ∈ kept ↔
          ¬ (idx < row.length ∧
             ∃ dt, parseDateFast (row.getD idx "") = some dt ∧ fromDate.le dt = true))) ∧
      (sbDeleteFromDate (headers :: dataRows) fromDate).1 + kept.length
        = dataRows.length := by
  rw [sbDeleteFromDate_eq headers dataRows fromDate idx hidx]
  refine ⟨dataRows.filter fun r => !sbRowMarked idx fromDate r, rfl, ?_, ?_⟩
  · intro row hrow
    rw [← sbRowMarked_iff idx fromDate row]
    constructor
    · intro hmem hmark
      have := (List.mem_filter.mp hmem).2
      simp [hmark] at this
    · intro hnm
      exact List.mem_filter.mpr ⟨hrow, by simp [Bool.not_eq_true] at hnm ⊢; exact hnm⟩
  · exact length_filter_add_not _ _

/-- C6 witness: cutoff 2025-10-15 over rows dated 2025-10-14 (in
`%m/%d/%Y`), 2025-10-15 (in `%d/%m/%Y`) and 2025-10-16 (in
`%Y-%m-%d`): exactly the last two are deleted, the first is kept. -/
theorem sb_delete_from_date_spec_witness :
    (∃ kept,
      (sbDeleteFromDate [["ASIN", "Date"], ["a", "10/14/2025"], ["b", "15/10/2025"],
          ["c", "2025-10-16"]] ⟨2025, 10, 15⟩).2 = ["ASIN", "Date"] :: kept ∧
      (∀ row ∈ [["a", "10/14/2025"], ["b", "15/10/2025"], ["c", "2025-10-16"]],
        (row ∈ kept ↔
          ¬ (1 < row.length ∧
             ∃ dt, parseDateFast (row.getD 1 "") = some dt ∧
               PyDate.le ⟨2025, 10, 15⟩ dt = true))) ∧
      (sbDeleteFromDate [["ASIN", "Date"], ["a", "10/14/2025"], ["b", "15/10/2025"],
          ["c", "2025-10-16"]] ⟨2025, 10, 15⟩).1 + kept.length = 3) ∧
    sbDeleteFromDate [["ASIN", "Date"], ["a", "10/14/2025"], ["b", "15/10/2025"],
        ["c", "2025-10-16"]] ⟨2025, 10, 15⟩
      = (2, [["ASIN", "Date"], ["a", "10/14/2025"]]) :=
  ⟨sb_delete_from_date_spec ["ASIN", "Date"]
      [["a", "10/14/2025"], ["b", "15/10/2025"], ["c", "2025-10-16"]]
      ⟨2025, 10, 15⟩ 1 (by decide),
   by decide⟩

/-! ## C4: append range arithmetic -/

/-- C4: appending `n ≥ 1` rows onto a sheet whose first column holds a
non-blank header and `e` non-blank data rows computes start row
`e + 2`, end row `e + 2 + n - 1`, grows the worksheet to at least the
end row before the writes, and every chunked write stays within
`[startRow, endRow]`. -/
theorem sb_append_range_arithmetic (header : String) (data : List String)
    (cap n : Nat) (hn : 1 ≤ n)
    (hh₁ : header ≠ "") (hh₂ : pyStrip header ≠ "") :
    (sbAppendPlan (header :: data) cap n).startRow
        = (data.filter fun v => !(v == "") && !(pyStrip v == "")).length + 2 ∧
    (sbAppendPlan (header :: data) cap n).endRow
        = (data.filter fun v => !(v == "") && !(pyStrip v == "")).length + 2 + n - 1 ∧
    (sbAppendPlan (header :: data) cap n).endRow
        ≤ (sbAppendPlan (header :: data) cap n).newRowCount ∧
    ∀ w ∈ (sbAppendPlan (header :: data) cap n).writes,
      (sbAppendPlan (header :: data) cap n).startRow ≤ w.1 ∧
        w.2 ≤ (sbAppendPlan (header :: data) cap n).endRow := by
  have hcount : getExistingSheetDataCount (header :: data)
      = (data.filter fun v => !(v == "") && !(pyStrip v == "")).length := by
    unfold getExistingSheetDataCount
    rw [List.filter_cons_of_pos]
    · simp
    · simp [hh₁, hh₂]
  set e := (data.filter fun v => !(v == "") && !(pyStrip v == "")).length with he
  unfold sbAppendPlan
  rw [hcount]
  have hmax : max (e + 2) 2 = e + 2 := by omega
  refine ⟨by simp [hmax], by simp [hmax], ?_, ?_⟩
  · simp only [hmax]
    split <;> omega
  · simp only [hmax]
    intro w hw
    unfold sbChunkWrites at hw
    split at hw
    · rcases List.mem_singleton.mp hw with rfl
      constructor <;> simp
    · rename_i hbig
      push_neg at hbig
      rcases List.mem_map.mp hw with ⟨j, hj, rfl⟩
      have hjlt : j + 1 ≤ (n + sbChunkSize - 1) / sbChunkSize := List.mem_range.mp hj
      have h1 : (j + 1) * sbChunkSize ≤ ((n + sbChunkSize - 1) / sbChunkSize) * sbChunkSize :=
        Nat.mul_le_mul_right _ hjlt
      have h2 : ((n + sbChunkSize - 1) / sbChunkSize) * sbChunkSize ≤ n + sbChunkSize - 1 :=
        Nat.div_mul_le_self _ _
      have hcs : sbChunkSize = 5000 := rfl
      rw [hcs] at h1 h2
      simp only [hcs]
      omega

/-- C4 witness: 9 existing non-blank data rows and 30 new rows give
start row 11, end row 40, and a grown capacity of at least 40. -/
theorem sb_append_range_arithmetic_witness :
    ((sbAppendPlan ("Date" :: List.replicate 9 "x") 20 30).startRow = 9 + 2 ∧
     (sbAppendPlan ("Date" :: List.replicate 9 "x") 20 30).endRow = 9 + 2 + 30 - 1 ∧
     (sbAppendPlan ("Date" :: List.replicate 9 "x") 20 30).endRow
        ≤ (sbAppendPlan ("Date" :: List.replicate 9 "x") 20 30).newRowCount ∧
     ∀ w ∈ (sbAppendPlan ("Date" :: List.replicate 9 "x") 20 30).writes,
       (sbAppendPlan ("Date" :: List.replicate 9 "x") 20 30).startRow ≤ w.1 ∧
         w.2 ≤ (sbAppendPlan ("Date" :: List.replicate 9 "x") 20 30).endRow) ∧
    (sbAppendPlan ("Date" :: List.replicate 9 "x") 20 30).startRow = 11 ∧
    (sbAppendPlan ("Date" :: List.replicate 9 "x") 20 30).endRow = 40 ∧
    40 ≤ (sbAppendPlan ("Date" :: List.replicate 9 "x") 20 30).newRowCount := by
  have h := sb_append_range_arithmetic "Date" (List.replicate 9 "x") 20 30
    (by decide) (by decide) (by decide)
  have h' : ((List.replicate 9 "x").filter
      fun v => !(v == "") && !(pyStrip v == "")).length = 9 := by decide
  refine ⟨?_, by decide, by decide, by decide⟩
  rw [h'] at h
  exact h

/-! ## C5: last-wins dedup on the PPC merge key -/

theorem dedupKeepLast_sublist (l : List PPCRow) : (dedupKeepLast l).Sublist l := by
  induction l with
  | nil => exact List.Sublist.refl _
  | cons r t ih =>
    unfold dedupKeepLast
    split
    · exact ih.cons r
    · exact ih.cons₂ r

theorem dedupKeepLast_pairwise (l : List PPCRow) :
    (dedupKeepLast l).Pairwise fun a b => ppcKey a ≠ ppcKey b := by
  induction l with
  | nil => exact List.Pairwise.nil
  | cons r t ih =>
    unfold dedupKeepLast
    split
    · exact ih
    · rename_i hnone
      refine List.Pairwise.cons ?_ ih
      intro x hx hkey
      have hxt : x ∈ t := (dedupKeepLast_sublist t).mem hx
      have : t.any (fun x => decide (ppcKey x = ppcKey r)) = true :=
        List.any_eq_true.mpr ⟨x, hxt, by simp [hkey]⟩
      simp [this] at hnone

theorem getLast?_cons_ne_nil {α : Type} (a : α) {l : List α} (h : l ≠ []) :
    (a :: l).getLast? = l.getLast? := by
  cases l with
  | nil => exact absurd rfl h
  | cons b t => exact List.getLast?_cons_cons

theorem dedupKeepLast_filter_key (l : List PPCRow) (k : String × PyDate × String)
    (x : PPCRow)
    (hx : (l.filter fun r => decide (ppcKey r = k)).getLast? = some x) :
    (dedupKeepLast l).filter (fun r => decide (ppcKey r = k)) = [x] := by
  induction l with
  | nil => simp at hx
  | cons r t ih =>
    unfold dedupKeepLast
    by_cases hdup : t.any (fun y => decide (ppcKey y = ppcKey r)) = true
    · rw [if_pos hdup]
      by_cases hk : ppcKey r = k
      · rcases List.any_eq_true.mp hdup with ⟨y, hyt, hy⟩
        have hyk : ppcKey y = k := by
          have := of_decide_eq_true hy
          rw [this, hk]
        have hne : t.filter (fun r => decide (ppcKey r = k)) ≠ [] := by
          intro hnil
          have : y ∈ t.filter (fun r => decide (ppcKey r = k)) :=
            List.mem_filter.mpr ⟨hyt, by simp [hyk]⟩
          simp [hnil] at this
        apply ih
        rw [List.filter_cons_of_pos (by simp [hk])] at hx
        rwa [getLast?_cons_ne_nil _ hne] at hx
      · apply ih
        rwa [List.filter_cons_of_neg (by simp [hk])] at hx
    · rw [if_neg hdup]
      have hnot : ∀ y ∈ t, ppcKey y ≠ ppcKey r := by
        intro y hyt hy
        exact hdup (List.any_eq_true.mpr ⟨y, hyt, by simp [hy]⟩)
      by_cases hk : ppcKey r = k
      · have hfil : t.filter (fun r => decide (ppcKey r = k)) = [] := by
          apply List.filter_eq_nil_iff.mpr
          intro y hyt
          simp only [decide_eq_true_eq]
          intro hyk
          exact hnot y hyt (hyk.trans hk.symm)
        have hfd : (dedupKeepLast t).filter (fun r => decide (ppcKey r = k)) = [] := by
          apply List.filter_eq_nil_iff.mpr
          intro y hyd
          have hyt := (dedupKeepLast_sublist t).mem hyd
          simp only [decide_eq_true_eq]
          intro hyk
          exact hnot y hyt (hyk.trans hk.symm)
        rw [List.filter_cons_of_pos (by simp [hk])] at hx ⊢
        rw [hfil] at hx
        simp at hx
        rw [hfd, hx]
      · rw [List.filter_cons_of_neg (by simp [hk])] at hx ⊢
        exact ih hx

theorem flatten_filter_nonEmpty {α : Type} (l : List (List α)) :
    (l.filter fun t => !t.isEmpty).flatten = l.flatten := by
  induction l with
  | nil => rfl
  | cons t rest ih =>
    cases t with
    | nil => simpa using ih
    | cons a u => simpa using ih

theorem ppcMergeTables_eq (tables : List (List PPCRow)) :
    ppcMergeTables tables
      = List.insertionSort ppcSortLE (dedupKeepLast tables.flatten) := by
  unfold ppcMergeTables
  dsimp only
  split
  · rename_i hempty
    have hfl : tables.flatten = [] := by
      rw [← flatten_filter_nonEmpty]
      simp only [List.isEmpty_iff] at hempty
      rw [hempty]
      rfl
    rw [hfl]
    rfl
  · rw [flatten_filter_nonEmpty]

/-- C5: merging two normalized tables (PPC module, merge key
`ASIN`-`Date`-`Campaign`): after the merge no two rows share the key,
and for any key the result keeps exactly one row, namely the last
occurrence of that key in concatenation order — the later table wins. -/
theorem ppc_merge_last_wins (t₁ t₂ : List PPCRow) (k : String × PyDate × String)
    (x : PPCRow)
    (hx : ((t₁ ++ t₂).filter fun r => decide (ppcKey r = k)).getLast? = some x) :
    (ppcMergeTables [t₁, t₂]).Pairwise (fun a b => ppcKey a ≠ ppcKey b) ∧
    (ppcMergeTables [t₁, t₂]).filter (fun r => decide (ppcKey r = k)) = [x] := by
  have hfl : ([t₁, t₂] : List (List PPCRow)).flatten = t₁ ++ t₂ := by
    simp
  rw [ppcMergeTables_eq, hfl]
  have hperm : (List.insertionSort ppcSortLE (dedupKeepLast (t₁ ++ t₂))).Perm
      (dedupKeepLast (t₁ ++ t₂)) := List.perm_insertionSort _ _
  constructor
  · have hsym : ∀ {a b : PPCRow}, ppcKey a ≠ ppcKey b → ppcKey b ≠ ppcKey a :=
      fun h he => h he.symm
    exact (List.Perm.pairwise_iff hsym hperm).mpr (dedupKeepLast_pairwise (t₁ ++ t₂))
  · have h1 := dedupKeepLast_filter_key (t₁ ++ t₂) k x hx
    have h2 := hperm.filter (fun r => decide (ppcKey r = k))
    rw [h1] at h2
    exact List.perm_singleton.mp h2

/-- C5 witness: two one-row tables sharing the merge key and differing
only in the magnitude field merge to exactly the later table's row. -/
theorem ppc_merge_last_wins_witness :
    ((ppcMergeTables [[⟨"A", ⟨2025, 10, 15⟩, "c1", 5, []⟩],
        [⟨"A", ⟨2025, 10, 15⟩, "c1", 9, []⟩]]).Pairwise
          (fun a b => ppcKey a ≠ ppcKey b) ∧
     (ppcMergeTables [[⟨"A", ⟨2025, 10, 15⟩, "c1", 5, []⟩],
        [⟨"A", ⟨2025, 10, 15⟩, "c1", 9, []⟩]]).filter
          (fun r => decide (ppcKey r = ("A", ⟨2025, 10, 15⟩, "c1")))
       = [⟨"A", ⟨2025, 10, 15⟩, "c1", 9, []⟩]) ∧
    ppcMergeTables [[⟨"A", ⟨2025, 10, 15⟩, "c1", 5, []⟩],
        [⟨"A", ⟨2025, 10, 15⟩, "c1", 9, []⟩]]
      = [⟨"A", ⟨2025, 10, 15⟩, "c1", 9, []⟩] :=
  ⟨ppc_merge_last_wins [⟨"A", ⟨2025, 10, 15⟩, "c1", 5, []⟩]
      [⟨"A", ⟨2025, 10, 15⟩, "c1", 9, []⟩] ("A", ⟨2025, 10, 15⟩, "c1")
      ⟨"A", ⟨2025, 10, 15⟩, "c1", 9, []⟩ (by decide),
   by decide⟩

/-! ## C3: filename date extraction is module-specific -/

/-- C3 counterexample: the claim asserts that EVERY module's extractor
maps a `15_10_2025` token and a `20251015` token to October 15, 2025.
The DSP extractor recognizes only `\d{8}` and returns `None` on
`sales_report_15_10_2025.xlsx`, and the Sellerboard extractor
recognizes only `\d{2}_\d{2}_\d{4}` and finds no match in
`report_20251015.xlsx`. -/
theorem extract_date_module_counterexample :
    ¬ (dspExtractDate "sales_report_15_10_2025.xlsx" = some ⟨2025, 10, 15⟩ ∧
       sbExtractDate "report_20251015.xlsx" = SBExtract.date ⟨2025, 10, 15⟩) := by
  decide

/-- C3 amended: date extraction is per-module.  Sellerboard recognizes
only `DD_MM_YYYY` (`None` otherwise); DSP recognizes only `YYYYMMDD`
(`None` otherwise); PPC recognizes both and, when no pattern matches,
returns the current date from INSIDE the extractor — the fallback is
part of extraction, not a separately configured behavior. -/
theorem extract_date_per_module :
    sbExtractDate "sales_report_15_10_2025.xlsx" = SBExtract.date ⟨2025, 10, 15⟩ ∧
    sbExtractDate "report_20251015.xlsx" = SBExtract.noMatch ∧
    sbExtractDate "reportnodigits.xlsx" = SBExtract.noMatch ∧
    dspExtractDate "report_20251015.xlsx" = some ⟨2025, 10, 15⟩ ∧
    dspExtractDate "sales_report_15_10_2025.xlsx" = none ∧
    dspExtractDate "reportnodigits.xlsx" = none ∧
    (∀ today, ppcExtractDate today "sales_report_15_10_2025.xlsx" = ⟨2025, 10, 15⟩) ∧
    (∀ today, ppcExtractDate today "report_20251015.xlsx" = ⟨2025, 10, 15⟩) ∧
    (∀ today, ppcExtractDate today "reportnodigits.xlsx" = today) :=
  ⟨by decide, by decide, by decide, by decide, by decide, by decide,
   fun _ => rfl, fun _ => rfl, fun _ => rfl⟩

/-! ## C8: batch result depends on worker completion order -/

/-- C8 counterexample: two per-file tables whose single rows tie on the
`(Date, Sales)` sort key.  The two worker completion orders are
permutations of each other, yet `process_files` (which concatenates in
`as_completed` order and stable-sorts) produces differently ordered
merged tables, so the batch result is not reproducible across runs. -/
theorem sb_completion_order_counterexample :
    ([[⟨⟨2025, 10, 15⟩, 5, [.str "A"]⟩], [⟨⟨2025, 10, 15⟩, 5, [.str "B"]⟩]] :
        List (List SBRow)).Perm
      [[⟨⟨2025, 10, 15⟩, 5, [.str "B"]⟩], [⟨⟨2025, 10, 15⟩, 5, [.str "A"]⟩]] ∧
    sbCombine [[⟨⟨2025, 10, 15⟩, 5, [.str "A"]⟩], [⟨⟨2025, 10, 15⟩, 5, [.str "B"]⟩]]
      ≠ sbCombine [[⟨⟨2025, 10, 15⟩, 5, [.str "B"]⟩], [⟨⟨2025, 10, 15⟩, 5, [.str "A"]⟩]] := by
  constructor
  · exact List.Perm.swap _ _ []
  · decide

theorem flatten_eq_nil_of_filter_nonEmpty_nil {α : Type} {l : List (List α)}
    (h : l.filter (fun t => !t.isEmpty) = []) : l.flatten = [] := by
  rw [← flatten_filter_nonEmpty, h]
  rfl

/-- C8 amended: the merged table is completion-order independent only
up to permutation — any two completion orders of the same per-file
results yield merged tables with the same rows, but (as the
counterexample shows) not necessarily in the same order. -/
theorem sb_combine_perm_invariant (l₁ l₂ : List (List SBRow)) (h : l₁.Perm l₂) :
    (sbCombine l₁).Perm (sbCombine l₂) := by
  unfold sbCombine
  dsimp only
  have hfil : (l₁.filter fun t => !t.isEmpty).Perm (l₂.filter fun t => !t.isEmpty) :=
    h.filter _
  by_cases he : (l₁.filter fun t => !t.isEmpty).isEmpty = true
  · have h₁ : l₁.filter (fun t => !t.isEmpty) = [] := List.isEmpty_iff.mp he
    have h₂ : l₂.filter (fun t => !t.isEmpty) = [] := by
      rw [h₁] at hfil
      exact hfil.symm.eq_nil
    simp [h₁, h₂]
  · have h₂ : ¬ (l₂.filter fun t => !t.isEmpty).isEmpty = true := by
      intro hc
      apply he
      rw [List.isEmpty_iff] at hc ⊢
      rw [hc] at hfil
      exact hfil.eq_nil
    rw [if_neg he, if_neg h₂]
    exact ((List.perm_insertionSort _ _).trans hfil.flatten).trans
      (List.perm_insertionSort _ _).symm

/-- C8 amended witness: the two completion orders of the
counterexample batch produce merged tables that are permutations of
each other. -/
theorem sb_combine_perm_invariant_witness :
    (sbCombine [[⟨⟨2025, 10, 15⟩, 5, [.str "A"]⟩], [⟨⟨2025, 10, 15⟩, 5, [.str "B"]⟩]]).Perm
      (sbCombine [[⟨⟨2025, 10, 15⟩, 5, [.str "B"]⟩], [⟨⟨2025, 10, 15⟩, 5, [.str "A"]⟩]]) :=
  sb_combine_perm_invariant _ _ (List.Perm.swap _ _ [])

/-! ## C7 and C10: the DSP per-file transform -/

theorem getColFirst_map_vals (cols : List (String × List Cell))
    (f : List Cell → List Cell) (n : String) :
    getColFirst (cols.map fun p => (p.1, f p.2)) n = (getColFirst cols n).map f := by
  induction cols with
  | nil => rfl
  | cons p t ih =>
    by_cases hp : p.1 == n
    · simp [getColFirst, List.find?_cons, hp]
    · simp only [getColFirst, List.map_cons, List.find?_cons] at ih ⊢
      simp only [hp]
      exact ih

theorem selectCols_head (cols : List (String × List Cell)) (n : String)
    (rest : List String) (e : String × List Cell)
    (hf : cols.filter (fun p => p.1 == n) = [e]) :
    (selectCols cols (n :: rest)).head? = some e := by
  unfold selectCols
  rw [List.flatMap_cons, hf]
  rfl

theorem filter_label_eq_nil (cols : List (String × List Cell)) (n : String)
    (h : hasCol cols n = false) : cols.filter (fun p => p.1 == n) = [] := by
  apply List.filter_eq_nil_iff.mpr
  intro p hp
  intro hc
  have hany : cols.any (fun q => q.1 == n) = true := List.any_eq_true.mpr ⟨p, hp, hc⟩
  have hfalse : cols.any (fun q => q.1 == n) = false := h
  rw [hany] at hfalse
  exact absurd hfalse (by decide)

/-- In the frame assembled by `process_single_file_content`, the
inserted ASIN column is the unique `"ASIN"`-labelled column. -/
theorem dspAssemble_filter_asin (cols₁ : List (String × List Cell))
    (creativeVals : List Cell) (nrows₁ : Nat) (dateVal : Cell)
    (hasin : hasCol cols₁ "ASIN" = false) :
    (dspAssemble cols₁ creativeVals nrows₁ dateVal).filter (fun p => p.1 == "ASIN")
      = [("ASIN", creativeVals.map deriveASIN)] := by
  unfold dspAssemble
  set asinVals := creativeVals.map deriveASIN with hav
  set dateCol := List.replicate nrows₁ dateVal with hdc
  set cols₂ : List (String × List Cell) := ("ASIN", asinVals) :: cols₁ with hc₂
  set cols₃ :=
    (match cols₂.findIdx? (fun p => p.1 == "Creative") with
     | some ci => cols₂.take (ci + 1) ++ [("Date", dateCol)] ++ cols₂.drop (ci + 1)
     | none => cols₂ ++ [("Date", dateCol)]) with hc₃
  have h₂ : cols₂.filter (fun p => p.1 == "ASIN") = [("ASIN", asinVals)] := by
    rw [hc₂, List.filter_cons_of_pos (by simp), filter_label_eq_nil cols₁ "ASIN" hasin]
  have h₃ : cols₃.filter (fun p => p.1 == "ASIN") = [("ASIN", asinVals)] := by
    rw [hc₃]
    cases hfi : cols₂.findIdx? (fun p => p.1 == "Creative") with
    | none =>
      rw [List.filter_append, h₂]
      simp [List.filter]
    | some ci =>
      rw [List.filter_append, List.filter_append]
      have hdate : ([(("Date" : String), dateCol)]).filter (fun p => p.1 == "ASIN") = [] := by
        simp [List.filter]
      rw [hdate, List.append_nil, ← List.filter_append, List.take_append_drop, h₂]
  have hmem : ("ASIN", asinVals) ∈ cols₃ := by
    have : ("ASIN", asinVals) ∈ cols₃.filter (fun p => p.1 == "ASIN") := by
      rw [h₃]
      exact List.mem_singleton.mpr rfl
    exact (List.mem_filter.mp this).1
  have hmiss : ((requiredColumnsDSP.filter fun c => !hasCol cols₃ c).map
      (fun c => (c, (List.replicate nrows₁ Cell.na)))).filter
        (fun p => p.1 == "ASIN") = [] := by
    apply List.filter_eq_nil_iff.mpr
    intro p hp hc
    rcases List.mem_map.mp hp with ⟨c, hcmem, rfl⟩
    rcases List.mem_filter.mp hcmem with ⟨_, hnc⟩
    have hcn : c = "ASIN" := by simpa using hc
    subst hcn
    have : hasCol cols₃ "ASIN" = true :=
      List.any_eq_true.mpr ⟨("ASIN", asinVals), hmem, by simp⟩
    simp [this] at hnc
  rw [List.filter_append, h₃, hmiss, List.append_nil]

/-- C7: the DSP transform derives the identifier by taking exactly the
first 10 characters of the `Creative` text (as stringified by
`astype(str)`), uppercased, and inserts the derived column as the new
leading field; the derivation is a fixed function of the source text,
hence deterministic on every source string, shorter or longer than 10
characters. -/
theorem dsp_asin_derivation (df : DataFrame) (fd : Option PyDate) (out : DataFrame)
    (cv : List Cell)
    (hok : dspProcessSingleFileContent df fd = .ok out)
    (hcv : getColFirst (dspPrep df).2 "Creative" = some cv) :
    out.cols.head? = some ("ASIN",
      cv.map fun c => Cell.str (pyUpper (pySlice (cellStr c) 10))) := by
  unfold dspProcessSingleFileContent at hok
  rw [hcv] at hok
  split at hok
  · exact absurd hok (by simp)
  split at hok
  · exact absurd hok (by simp)
  split at hok
  · exact absurd hok (by simp)
  split at hok
  · exact absurd hok (by simp)
  rename_i h₁ h₂ h₃ h₄
  simp only at hok
  rw [Except.ok.injEq] at hok
  subst hok
  simp only [Bool.not_eq_true] at h₄
  have hreq : requiredColumnsDSP = "ASIN" :: requiredColumnsDSP.tail := rfl
  simp only
  rw [hreq]
  apply selectCols_head
  exact dspAssemble_filter_asin (dspPrep df).2 cv (dspPrep df).1 _ h₄

/-- C7 witness: creative strings of lengths 5, 10 and 20 (plus a
totals row that is dropped) derive 5-, 10- and 10-character uppercased
identifiers in the leading `ASIN` column. -/
theorem dsp_asin_derivation_witness :
    (getColFirst
        (dspPrep ⟨4, [("Creative",
          [.str "b0abc", .str "b01abcdefg", .str "b09numberedXtrailing", .str "totals"])]⟩).2
        "Creative" = some [.str "b0abc", .str "b01abcdefg", .str "b09numberedXtrailing"]) ∧
    ((dspProcessSingleFileContent
        ⟨4, [("Creative",
          [.str "b0abc", .str "b01abcdefg", .str "b09numberedXtrailing", .str "totals"])]⟩
        (some ⟨2025, 10, 15⟩)).toOption.getD ⟨0, []⟩).cols.head?
      = some ("ASIN", [.str "B0ABC", .str "B01ABCDEFG", .str "B09NUMBERE"]) := by
  refine ⟨by decide, ?_⟩
  have hok : dspProcessSingleFileContent
      ⟨4, [("Creative",
        [.str "b0abc", .str "b01abcdefg", .str "b09numberedXtrailing", .str "totals"])]⟩
      (some ⟨2025, 10, 15⟩)
      = .ok ((dspProcessSingleFileContent
          ⟨4, [("Creative",
            [.str "b0abc", .str "b01abcdefg", .str "b09numberedXtrailing", .str "totals"])]⟩
          (some ⟨2025, 10, 15⟩)).toOption.getD ⟨0, []⟩) := by rfl
  have h := dsp_asin_derivation _ _ _
    [.str "b0abc", .str "b01abcdefg", .str "b09numberedXtrailing"] hok (by decide)
  rw [h]
  decide

/-- C10: when the input table has more than one row, the DSP transform
drops exactly the final (totals) row before normalization — the output
has one fewer row, and the retained `Creative` data is the `dropLast`
of what was read; a single-row table is kept whole. -/
theorem dsp_totals_row_drop (df : DataFrame) (fd : Option PyDate) (out : DataFrame)
    (hok : dspProcessSingleFileContent df fd = .ok out) :
    (1 < df.nrows → out.nrows = df.nrows - 1) ∧
    (df.nrows = 1 → out.nrows = 1) ∧
    (∀ cv₀, getColFirst (dspBaseCols df) "Creative" = some cv₀ → 1 < df.nrows →
      getColFirst (dspPrep df).2 "Creative" = some cv₀.dropLast) := by
  have hnr : out.nrows = (dspPrep df).1 := by
    unfold dspProcessSingleFileContent at hok
    split at hok
    · exact absurd hok (by simp)
    split at hok
    · exact absurd hok (by simp)
    split at hok
    · exact absurd hok (by simp)
    split at hok
    · exact absurd hok (by simp)
    split at hok
    · exact absurd hok (by simp)
    · rw [Except.ok.injEq] at hok
      rw [← hok]
  refine ⟨?_, ?_, ?_⟩
  · intro h
    rw [hnr]
    unfold dspPrep
    rw [if_pos h]
  · intro h
    rw [hnr]
    unfold dspPrep
    rw [if_neg (by omega)]
    exact h
  · intro cv₀ hcv₀ h
    unfold dspPrep
    rw [if_pos h]
    simp only
    rw [getColFirst_map_vals, hcv₀]
    rfl

/-- C10 witness: a three-row frame keeps two rows (the `Creative`
column loses its final value), a one-row frame is kept whole. -/
theorem dsp_totals_row_drop_witness :
    (1 < 3 ∧
     ((dspProcessSingleFileContent ⟨3, [("Creative", [.str "a", .str "b", .str "t"])]⟩
        none).toOption.getD ⟨0, []⟩).nrows = 3 - 1 ∧
     getColFirst (dspPrep ⟨3, [("Creative", [.str "a", .str "b", .str "t"])]⟩).2 "Creative"
       = some ([Cell.str "a", .str "b", .str "t"].dropLast)) ∧
    ((dspProcessSingleFileContent ⟨1, [("Creative", [.str "a"])]⟩
        none).toOption.getD ⟨0, []⟩).nrows = 1 := by
  have hok₃ : dspProcessSingleFileContent ⟨3, [("Creative", [.str "a", .str "b", .str "t"])]⟩ none
      = .ok ((dspProcessSingleFileContent ⟨3, [("Creative", [.str "a", .str "b", .str "t"])]⟩
          none).toOption.getD ⟨0, []⟩) := by rfl
  have hok₁ : dspProcessSingleFileContent ⟨1, [("Creative", [.str "a"])]⟩ none
      = .ok ((dspProcessSingleFileContent ⟨1, [("Creative", [.str "a"])]⟩
          none).toOption.getD ⟨0, []⟩) := by rfl
  have h₃ := dsp_totals_row_drop _ none _ hok₃
  have h₁ := dsp_totals_row_drop _ none _ hok₁
  exact ⟨⟨by decide, h₃.1 (by decide),
    h₃.2.2 [Cell.str "a", .str "b", .str "t"] (by decide) (by decide)⟩,
    h₁.2.1 rfl⟩

/-! ## Python-dict lemmas -/

theorem mem_of_getLast?_eq {α : Type} {l : List α} {x : α}
    (h : l.getLast? = some x) : x ∈ l := by
  rcases List.mem_getLast?_eq_getLast (show x ∈ l.getLast? by rw [h]; rfl) with ⟨hne, hx⟩
  rw [hx]
  exact List.getLast_mem hne

theorem lookup_mem {m : List (String × String)} {k : String} {v : String}
    (h : m.lookup k = some v) : (k, v) ∈ m := by
  induction m with
  | nil => simp at h
  | cons p t ih =>
    rcases p with ⟨k₁, v₁⟩
    rw [List.lookup_cons] at h
    by_cases hk : k == k₁
    · simp only [hk] at h
      have hkk : k = k₁ := by simpa using hk
      have hvv : v₁ = v := by simpa using h
      rw [hkk, hvv]
      exact List.mem_cons_self _ _
    · simp only [Bool.not_eq_true] at hk
      rw [hk] at h
      exact List.mem_cons_of_mem _ (ih h)

theorem lookup_eq_none_forall {m : List (String × String)} {k : String}
    (h : m.lookup k = none) : ∀ p ∈ m, p.1 ≠ k := by
  induction m with
  | nil => intro p hp; simp at hp
  | cons q t ih =>
    rcases q with ⟨k₁, v₁⟩
    rw [List.lookup_cons] at h
    by_cases hk : k == k₁
    · simp [hk] at h
    · simp only [Bool.not_eq_true] at hk
      rw [hk] at h
      intro p hp
      rcases List.mem_cons.mp hp with rfl | hpt
      · simp only [ne_eq]
        intro hc
        rw [hc] at hk
        simp at hk
      · exact ih h p hpt

theorem lookup_mapReplace (m : List (String × String)) (k v k' : String) :
    (m.map fun p => if p.1 == k then (k, v) else p).lookup k'
      = if k' = k then (m.lookup k).map (fun _ => v) else m.lookup k' := by
  induction m with
  | nil => by_cases h : k' = k <;> simp [h]
  | cons p t ih =>
    rcases p with ⟨k₁, v₁⟩
    by_cases h₁ : k₁ = k
    · subst h₁
      by_cases h₂ : k' = k₁
      · subst h₂
        simp [List.lookup_cons]
      · have hb : (k' == k₁) = false := by simpa using h₂
        simp [List.lookup_cons, hb, h₂]
        simpa [h₂] using ih
    · have hb₁ : (k₁ == k) = false := by simpa using h₁
      by_cases h₂ : k' = k₁
      · subst h₂
        have hk'k : ¬ k' = k := fun hc => h₁ (hc ▸ rfl)
        simp [List.lookup_cons, hb₁, hk'k]
      · have hb₂ : (k' == k₁) = false := by simpa using h₂
        have hb₃ : (k == k₁) = false := by
          simp only [beq_eq_false_iff_ne, ne_eq]
          exact fun hc => h₁ hc.symm
        simp [List.lookup_cons, h₁, hb₂, hb₃]
        simpa using ih

theorem lookup_append (l₁ l₂ : List (String × String)) (k : String) :
    (l₁ ++ l₂).lookup k =
      match l₁.lookup k with
      | some v => some v
      | none => l₂.lookup k := by
  induction l₁ with
  | nil => simp
  | cons p t ih =>
    rcases p with ⟨k₁, v₁⟩
    by_cases h : k = k₁
    · subst h
      simp [List.lookup_cons]
    · have hb : (k == k₁) = false := by simpa using h
      simp [List.lookup_cons, hb, ih]

/-- The dict-lookup law for `dictUpsert`: the inserted key now maps to
the new value, all other keys are untouched. -/
theorem lookup_dictUpsert (m : List (String × String)) (k v k' : String) :
    (dictUpsert m k v).lookup k' = if k' = k then some v else m.lookup k' := by
  unfold dictUpsert
  by_cases hsome : (m.lookup k).isSome
  · rw [if_pos hsome, lookup_mapReplace]
    by_cases h : k' = k
    · rw [if_pos h, if_pos h]
      rcases Option.isSome_iff_exists.mp hsome with ⟨w, hw⟩
      rw [hw]
      rfl
    · rw [if_neg h, if_neg h]
  · rw [if_neg hsome, lookup_append]
    have hnone : m.lookup k = none := Option.not_isSome_iff_eq_none.mp hsome
    by_cases h : k' = k
    · subst h
      rw [hnone]
      simp [List.lookup_cons]
    · have hb : (k' == k) = false := by simpa using h
      cases hm : m.lookup k' with
      | some w => simp [hm, h]
      | none => simp [hm, h, List.lookup_cons, hb]

/-- Entries of `dictUpsert m k v` are the new pair or old pairs at
other keys. -/
theorem mem_dictUpsert {m : List (String × String)} {k v : String}
    {p : String × String} (h : p ∈ dictUpsert m k v) :
    p = (k, v) ∨ (p ∈ m ∧ p.1 ≠ k) := by
  unfold dictUpsert at h
  by_cases hsome : (m.lookup k).isSome
  · rw [if_pos hsome] at h
    rcases List.mem_map.mp h with ⟨q, hq, hqe⟩
    by_cases hqk : (q.1 == k) = true
    · left
      rw [← hqe]
      simp [hqk]
    · right
      rw [if_neg hqk] at hqe
      rw [← hqe]
      refine ⟨hq, ?_⟩
      simpa using hqk
  · rw [if_neg hsome] at h
    rcases List.mem_append.mp h with hm | hnew
    · right
      have hnone : m.lookup k = none := Option.not_isSome_iff_eq_none.mp hsome
      exact ⟨hm, lookup_eq_none_forall hnone p hm⟩
    · left
      simpa using hnew

/-- Any invariant of the input pairs is an invariant of the built
dict. -/
theorem mem_buildDict_aux (P : String × String → Prop) :
    ∀ (l acc : List (String × String)), (∀ q ∈ l, P q) → (∀ q ∈ acc, P q) →
      ∀ q ∈ l.foldl (fun m p => dictUpsert m p.1 p.2) acc, P q := by
  intro l
  induction l with
  | nil => exact fun acc _ hacc => hacc
  | cons p t ih =>
    intro acc hl hacc q hq
    refine ih _ (fun r hr => hl r (List.mem_cons_of_mem _ hr)) ?_ q hq
    intro r hr
    rcases mem_dictUpsert hr with hre | ⟨hrm, _⟩
    · rw [hre]
      have hpp : (p.1, p.2) = p := rfl
      rw [hpp]
      exact hl p (List.mem_cons_self _ _)
    · exact hacc r hrm

theorem mem_buildDict (P : String × String → Prop) (l : List (String × String))
    (hl : ∀ q ∈ l, P q) : ∀ q ∈ buildDict l, P q :=
  mem_buildDict_aux P l [] hl (fun q hq => absurd hq (List.not_mem_nil q))

/-- The dict built from a pair list maps each key to the LAST value
supplied for it (dict-comprehension semantics). -/
theorem buildDict_lookup_aux (l : List (String × String))
    (acc : List (String × String)) (k : String) :
    (l.foldl (fun m p => dictUpsert m p.1 p.2) acc).lookup k =
      match (l.filter fun p => p.1 == k).getLast? with
      | some e => some e.2
      | none => acc.lookup k := by
  induction l generalizing acc with
  | nil => simp
  | cons p t ih =>
    rcases p with ⟨k₁, v₁⟩
    rw [List.foldl_cons, ih]
    by_cases h : k₁ = k
    · subst h
      rw [List.filter_cons_of_pos (by simp)]
      cases htf : t.filter (fun p => p.1 == k₁) with
      | nil =>
        simp only [htf]
        rw [lookup_dictUpsert, if_pos rfl]
        rfl
      | cons e es =>
        rw [← htf, getLast?_cons_ne_nil _ (by rw [htf]; simp)]
        cases hgl : (t.filter fun p => p.1 == k₁).getLast? with
        | none =>
          have hne : t.filter (fun p => p.1 == k₁) ≠ [] := by rw [htf]; simp
          exact absurd (List.getLast?_isSome.mpr hne) (by rw [hgl]; simp)
        | some e' => rfl
    · rw [List.filter_cons_of_neg (by simpa using h)]
      cases hgl : (t.filter fun p => p.1 == k).getLast? with
      | none =>
        simp only
        rw [lookup_dictUpsert, if_neg (fun hc => h hc.symm)]
      | some e' => rfl

theorem buildDict_lookup (l : List (String × String)) (k : String) :
    (buildDict l).lookup k =
      ((l.filter fun p => p.1 == k).getLast?).map Prod.snd := by
  unfold buildDict
  rw [buildDict_lookup_aux]
  cases hgl : (l.filter fun p => p.1 == k).getLast? with
  | none => simp
  | some e => rfl

/-- Looking up the lowered form of a name in the df-side dict returns
the name itself, provided the name is the only one in the column list
with that lowered form. -/
theorem buildDict_lower_lookup (L : List String) (s : String) (hs : s ∈ L)
    (hinj : ∀ n ∈ L, pyLower n = pyLower s → n = s) :
    (buildDict (L.map fun n => (pyLower n, n))).lookup (pyLower s) = some s := by
  rw [buildDict_lookup]
  have hfm : (L.map fun n => (pyLower n, n)).filter (fun p => p.1 == pyLower s)
      = (L.filter fun n => pyLower n == pyLower s).map fun n => (pyLower n, n) := by
    rw [List.filter_map]
    rfl
  rw [hfm, List.getLast?_map]
  have hmem : s ∈ L.filter fun n => pyLower n == pyLower s :=
    List.mem_filter.mpr ⟨hs, by simp⟩
  have hne : (L.filter fun n => pyLower n == pyLower s) ≠ [] :=
    List.ne_nil_of_mem hmem
  cases hgl : (L.filter fun n => pyLower n == pyLower s).getLast? with
  | none => exact absurd (List.getLast?_isSome.mpr hne) (by rw [hgl]; simp)
  | some n₀ =>
    have hn₀ : n₀ ∈ L.filter fun n => pyLower n == pyLower s :=
      mem_of_getLast?_eq hgl
    rcases List.mem_filter.mp hn₀ with ⟨hn₀L, hn₀low⟩
    have hs₀ : n₀ = s := hinj n₀ hn₀L (by simpa using hn₀low)
    subst hs₀
    rfl

/-! ## selectCols lemmas -/

theorem mem_selectCols {X : List (String × List Cell)} {names : List String}
    {p : String × List Cell} :
    p ∈ selectCols X names ↔ p.1 ∈ names ∧ p ∈ X := by
  unfold selectCols
  rw [List.mem_flatMap]
  constructor
  · rintro ⟨n, hn, hp⟩
    rcases List.mem_filter.mp hp with ⟨hpX, hpn⟩
    have : p.1 = n := by simpa using hpn
    exact ⟨this ▸ hn, hpX⟩
  · rintro ⟨hn, hp⟩
    exact ⟨p.1, hn, List.mem_filter.mpr ⟨hp, by simp⟩⟩

theorem countP_filter_label (X : List (String × List Cell)) (n s : String) :
    (X.filter fun p => p.1 == n).countP (fun p => p.1 == s)
      = if n = s then X.countP (fun p => p.1 == s) else 0 := by
  rw [List.countP_filter]
  by_cases h : n = s
  · subst h
    rw [if_pos rfl]
    congr 1
    funext p
    by_cases hp : p.1 = n <;> simp [hp]
  · rw [if_neg h]
    rw [List.countP_eq_zero]
    intro p _
    simp only [Bool.and_eq_true, beq_iff_eq, not_and]
    intro hs hn
    exact h (hn ▸ hs ▸ rfl)

theorem countP_selectCols (X : List (String × List Cell)) (names : List String)
    (s : String) (hnd : names.Nodup) :
    (selectCols X names).countP (fun p => p.1 == s)
      = if s ∈ names then X.countP (fun p => p.1 == s) else 0 := by
  induction names with
  | nil => simp [selectCols]
  | cons n rest ih =>
    rcases List.nodup_cons.mp hnd with ⟨hn, hrest⟩
    unfold selectCols
    rw [List.flatMap_cons, List.countP_append]
    have ihr := ih hrest
    unfold selectCols at ihr
    rw [ihr, countP_filter_label]
    by_cases h₁ : n = s
    · subst h₁
      rw [if_pos rfl, if_pos (List.mem_cons_self _ _), if_neg (fun hc => hn hc)]
      omega
    · rw [if_neg h₁]
      by_cases h₂ : s ∈ rest
      · rw [if_pos h₂, if_pos (List.mem_cons_of_mem _ h₂)]
        omega
      · rw [if_neg h₂, if_neg (by
          intro hc
          rcases List.mem_cons.mp hc with hc | hc
          · exact h₁ hc.symm
          · exact h₂ hc)]

theorem map_fst_filter_label (X : List (String × List Cell)) (n : String) :
    (X.filter fun p => p.1 == n).map Prod.fst
      = List.replicate ((X.filter fun p => p.1 == n).length) n := by
  induction X with
  | nil => rfl
  | cons p t ih =>
    by_cases hp : p.1 = n
    · rw [List.filter_cons_of_pos (by simpa using hp), List.map_cons, ih,
        List.length_cons, List.replicate_succ, hp]
    · rw [List.filter_cons_of_neg (by simpa using hp)]
      exact ih

/-- When every requested name labels exactly one column, selection
returns exactly the requested labels in order. -/
theorem selectCols_names (X : List (String × List Cell)) (names : List String)
    (h1 : ∀ s ∈ names, (X.filter fun p => p.1 == s).length = 1) :
    (selectCols X names).map Prod.fst = names := by
  induction names with
  | nil => rfl
  | cons n rest ih =>
    unfold selectCols
    rw [List.flatMap_cons, List.map_append, map_fst_filter_label,
      h1 n (List.mem_cons_self _ _)]
    have ihr := ih fun s hs => h1 s (List.mem_cons_of_mem _ hs)
    unfold selectCols at ihr
    rw [ihr]
    rfl

theorem filter_filter_label (X : List (String × List Cell)) (n m : String) :
    (X.filter fun p => p.1 == n).filter (fun p => p.1 == m)
      = if n = m then X.filter (fun p => p.1 == n) else [] := by
  by_cases h : n = m
  · subst h
    rw [if_pos rfl, List.filter_filter]
    congr 1
    funext p
    by_cases hp : p.1 = n <;> simp [hp]
  · rw [if_neg h, List.filter_eq_nil_iff]
    intro p hp
    rcases List.mem_filter.mp hp with ⟨_, hpn⟩
    have : p.1 = n := by simpa using hpn
    simp [this, h]

theorem filter_selectCols (X : List (String × List Cell)) (names : List String)
    (m : String) (hnd : names.Nodup) :
    (selectCols X names).filter (fun p => p.1 == m)
      = if m ∈ names then X.filter (fun p => p.1 == m) else [] := by
  induction names with
  | nil => simp [selectCols]
  | cons n rest ih =>
    rcases List.nodup_cons.mp hnd with ⟨hn, hrest⟩
    unfold selectCols
    rw [List.flatMap_cons, List.filter_append, filter_filter_label]
    have ihr := ih hrest
    unfold selectCols at ihr
    rw [ihr]
    by_cases h₁ : n = m
    · subst h₁
      rw [if_pos rfl, if_neg (fun hc => hn hc), if_pos (List.mem_cons_self _ _),
        List.append_nil]
    · rw [if_neg h₁]
      by_cases h₂ : m ∈ rest
      · rw [if_pos h₂, if_pos (List.mem_cons_of_mem _ h₂), List.nil_append]
      · rw [if_neg h₂, if_neg (by
          intro hc
          rcases List.mem_cons.mp hc with hc | hc
          · exact h₁ hc.symm
          · exact h₂ hc)]
        rfl

theorem flatMap_congr_mem {α β : Type} (l : List α) (f g : α → List β)
    (h : ∀ a ∈ l, f a = g a) : l.flatMap f = l.flatMap g := by
  induction l with
  | nil => rfl
  | cons a t ih =>
    rw [List.flatMap_cons, List.flatMap_cons, h a (List.mem_cons_self _ _),
      ih fun b hb => h b (List.mem_cons_of_mem _ hb)]

/-- Selecting the same (duplicate-free) label list twice is the same
as selecting it once. -/
theorem selectCols_idem (X : List (String × List Cell)) (names : List String)
    (hnd : names.Nodup) :
    selectCols (selectCols X names) names = selectCols X names := by
  conv_lhs => unfold selectCols
  exact flatMap_congr_mem names _ _ fun n hn => by
    have h := filter_selectCols X names n hnd
    rw [if_pos hn] at h
    exact h

theorem countP_le_one_of_inj {α : Type} (l : List α) (p : α → Bool)
    (hnd : l.Nodup)
    (hinj : ∀ a ∈ l, ∀ b ∈ l, p a = true → p b = true → a = b) :
    l.countP p ≤ 1 := by
  induction l with
  | nil => simp
  | cons a t ih =>
    rcases List.nodup_cons.mp hnd with ⟨hat, ht⟩
    by_cases hpa : p a = true
    · rw [List.countP_cons_of_pos _ _ hpa]
      have hz : t.countP p = 0 := by
        rw [List.countP_eq_zero]
        intro b hb hpb
        have : a = b := hinj a (List.mem_cons_self _ _) b (List.mem_cons_of_mem _ hb) hpa hpb
        exact hat (this ▸ hb)
      omega
    · rw [List.countP_cons_of_neg _ _ (by simpa using hpa)]
      exact ih ht fun x hx y hy hpx hpy =>
        hinj x (List.mem_cons_of_mem _ hx) y (List.mem_cons_of_mem _ hy) hpx hpy

/-! ## columnMapping lemmas

The `column_mapping` loop is a fold of `mappingStep` over the concrete
`stdColMap`.  Three reusable facts about each processed entry are
decidable: its key is the lowered value, the sponsored token guard
holds exactly for the `Sponsored products (PPC)` entry, and the refund
token guard holds for NO entry — the canonical refund column spells
`cost` with CYRILLIC SMALL LETTER ES, while the guard tests the Latin
spelling, so the refund alias branch is unreachable. -/

theorem stdColMap_econd : ∀ e ∈ stdColMap,
    e.1 = pyLower e.2 ∧ e.2 ∈ standardColumns ∧
    ((pyContains e.1 "sponsored" && pyContains e.1 "ppc")
        = (e.2 == "Sponsored products (PPC)")) ∧
    ((pyContains e.1 "refund" && pyContains e.1 "cost") = false) := by
  decide

/-- Every non-exact mapping entry traces back to the sponsored alias
search; in particular every entry is an exact case-insensitive match
or the sponsored alias, never a refund alias. -/
theorem columnMapping_origin_aux (dfMap : List (String × String))
    (L : List (String × String)) (acc : List (String × String))
    (hL : ∀ e ∈ L,
      e.1 = pyLower e.2 ∧ e.2 ∈ standardColumns ∧
      ((pyContains e.1 "sponsored" && pyContains e.1 "ppc")
          = (e.2 == "Sponsored products (PPC)")) ∧
      ((pyContains e.1 "refund" && pyContains e.1 "cost") = false))
    (hacc : ∀ p ∈ acc,
      p.2 ∈ standardColumns ∧
      (dfMap.lookup (pyLower p.2) = some p.1 ∨
       (p.2 = "Sponsored products (PPC)" ∧
        dfMap.lookup (pyLower "Sponsored products (PPC)") = none ∧
        ∃ q, dfMap.find?
            (fun r => pyContains r.1 "sponsored" && pyContains r.1 "ppc") = some q ∧
          q.2 = p.1))) :
    ∀ p ∈ L.foldl (mappingStep dfMap) acc,
      p.2 ∈ standardColumns ∧
      (dfMap.lookup (pyLower p.2) = some p.1 ∨
       (p.2 = "Sponsored products (PPC)" ∧
        dfMap.lookup (pyLower "Sponsored products (PPC)") = none ∧
        ∃ q, dfMap.find?
            (fun r => pyContains r.1 "sponsored" && pyContains r.1 "ppc") = some q ∧
          q.2 = p.1)) := by
  induction L generalizing acc with
  | nil => exact hacc
  | cons e t ih =>
    rcases hL e (List.mem_cons_self _ _) with ⟨helow, hestd, hesp, heref⟩
    intro p hp
    refine ih _ (fun f hf => hL f (List.mem_cons_of_mem _ hf)) ?_ p hp
    intro r hr
    rw [List.foldl_cons] at hp
    unfold mappingStep at hr
    cases hlk : dfMap.lookup e.1 with
    | some dfCol =>
      rw [hlk] at hr
      rcases mem_dictUpsert hr with hre | ⟨hrm, _⟩
      · rw [hre]
        refine ⟨hestd, Or.inl ?_⟩
        rw [← helow]
        exact hlk
      · exact hacc r hrm
    | none =>
      rw [hlk] at hr
      by_cases hsp : (pyContains e.1 "sponsored" && pyContains e.1 "ppc") = true
      · rw [if_pos hsp] at hr
        cases hfind : dfMap.find?
            (fun r => pyContains r.1 "sponsored" && pyContains r.1 "ppc") with
        | some q =>
          rw [hfind] at hr
          simp only [hfind] at hacc
          rcases mem_dictUpsert hr with hre | ⟨hrm, _⟩
          · rw [hre]
            have hesp' : e.2 = "Sponsored products (PPC)" := by
              rw [hsp] at hesp
              exact beq_iff_eq.mp hesp.symm
            refine ⟨hestd, Or.inr ⟨hesp', ?_, q, rfl, rfl⟩⟩
            rw [← hesp', ← helow]
            exact hlk
          · exact hacc r hrm
        | none =>
          rw [hfind] at hr
          simp only [hfind] at hacc
          exact hacc r hr
      · rw [if_neg hsp, heref] at hr
        simp only [Bool.false_eq_true, if_false] at hr
        exact hacc r hr

theorem columnMapping_origin (dfMap : List (String × String)) :
    ∀ p ∈ columnMapping dfMap,
      p.2 ∈ standardColumns ∧
      (dfMap.lookup (pyLower p.2) = some p.1 ∨
       (p.2 = "Sponsored products (PPC)" ∧
        dfMap.lookup (pyLower "Sponsored products (PPC)") = none ∧
        ∃ q, dfMap.find?
            (fun r => pyContains r.1 "sponsored" && pyContains r.1 "ppc") = some q ∧
          q.2 = p.1)) := by
  unfold columnMapping
  exact columnMapping_origin_aux dfMap stdColMap [] stdColMap_econd
    (fun p hp => absurd hp (List.not_mem_nil p))

/-- A `mappingStep` never erases a key: once present, a key stays
present in the mapping. -/
theorem mappingStep_lookup_isSome_mono (dfMap acc : List (String × String))
    (f : String × String) (c : String) (h : (acc.lookup c).isSome) :
    ((mappingStep dfMap acc f).lookup c).isSome := by
  unfold mappingStep
  cases hlk : dfMap.lookup f.1 with
  | some dfCol =>
    rw [lookup_dictUpsert]
    by_cases hc : c = dfCol
    · rw [if_pos hc]; rfl
    · rw [if_neg hc]; exact h
  | none =>
    by_cases hsp : (pyContains f.1 "sponsored" && pyContains f.1 "ppc") = true
    · rw [if_pos hsp]
      cases hfind : dfMap.find?
          (fun r => pyContains r.1 "sponsored" && pyContains r.1 "ppc") with
      | some q =>
        rw [lookup_dictUpsert]
        by_cases hc : c = q.2
        · rw [if_pos hc]; rfl
        · rw [if_neg hc]; exact h
      | none => exact h
    · rw [if_neg hsp]
      by_cases href : (pyContains f.1 "refund" && pyContains f.1 "cost") = true
      · rw [if_pos href]
        cases hfind : dfMap.find? (fun r => pyContains r.1 "refund" &&
            (pyContains r.1 "cost" || pyContains r.1 "сost")) with
        | some q =>
          rw [lookup_dictUpsert]
          by_cases hc : c = q.2
          · rw [if_pos hc]; rfl
          · rw [if_neg hc]; exact h
        | none => exact h
      · rw [if_neg href]
        exact h

theorem foldl_mappingStep_isSome_mono (dfMap : List (String × String))
    (L : List (String × String)) (acc : List (String × String)) (c : String)
    (h : (acc.lookup c).isSome) :
    ((L.foldl (mappingStep dfMap) acc).lookup c).isSome := by
  induction L generalizing acc with
  | nil => exact h
  | cons f t ih =>
    rw [List.foldl_cons]
    exact ih _ (mappingStep_lookup_isSome_mono dfMap acc f c h)

/-- Once a standard entry finds an exact case-insensitive df match,
that df column is a key of the final mapping. -/
theorem columnMapping_lookup_isSome (dfMap : List (String × String))
    (e : String × String) (he : e ∈ stdColMap) (c : String)
    (hc : dfMap.lookup e.1 = some c) :
    ((columnMapping dfMap).lookup c).isSome := by
  rcases List.append_of_mem he with ⟨L₁, L₂, hsplit⟩
  unfold columnMapping
  rw [hsplit, List.foldl_append, List.foldl_cons]
  apply foldl_mappingStep_isSome_mono
  unfold mappingStep
  rw [hc, lookup_dictUpsert, if_pos rfl]
  rfl

/-! ## C2: column-mapping aliases -/

/-- The df-side lowercase map always pairs each key with a value whose
lowering is that key. -/
theorem sbDfMap_inv (df : DataFrame) : ∀ p ∈ sbDfMap df, p.1 = pyLower p.2 := by
  unfold sbDfMap
  apply mem_buildDict
  intro q hq
  rcases List.mem_map.mp hq with ⟨r, _, hre⟩
  rw [← hre]

/-- C2 counterexample: the raw header `Refund Cost` (all Latin)
case-insensitively contains both a `refund` and a `cost` token and no
exact header equality claims the canonical refund field — yet the
mapping comes out empty and the canonical `Refund сost` column
(spelled with CYRILLIC SMALL LETTER ES U+0441) is filled with null
instead of the raw column's data: the refund alias guard compares the
Latin token against the Cyrillic canonical name and never fires. -/
theorem column_mapping_refund_counterexample :
    pyContains (pyLower "Refund Cost") "refund" = true ∧
    pyContains (pyLower "Refund Cost") "cost" = true ∧
    pyLower "Refund Cost" ≠ pyLower "Refund сost" ∧
    columnMapping (sbDfMap ⟨1, [("Refund Cost", [Cell.str "5"])]⟩) = [] ∧
    (standardizeColumns ⟨1, [("Refund Cost", [Cell.str "5"])]⟩).cols.lookup
      "Refund сost" = some [Cell.na] := by
  decide

/-- A `mappingStep` whose entry triggers no alias guard and whose
exact match (if any) lands on a different key leaves the mapping's
value at `k₀` unchanged. -/
theorem mappingStep_lookup_preserve (dfMap acc : List (String × String))
    (e : String × String) (k₀ : String)
    (hsp : (pyContains e.1 "sponsored" && pyContains e.1 "ppc") = false)
    (href : (pyContains e.1 "refund" && pyContains e.1 "cost") = false)
    (hkey : ∀ dfCol, dfMap.lookup e.1 = some dfCol → dfCol ≠ k₀) :
    (mappingStep dfMap acc e).lookup k₀ = acc.lookup k₀ := by
  unfold mappingStep
  cases hlk : dfMap.lookup e.1 with
  | some dfCol =>
    rw [lookup_dictUpsert, if_neg ?_]
    exact fun hc => hkey dfCol hlk hc.symm
  | none =>
    rw [hsp, href]
    simp only [Bool.false_eq_true, if_false]

theorem foldl_mappingStep_preserve (dfMap : List (String × String))
    (L : List (String × String)) (acc : List (String × String)) (k₀ : String)
    (hL : ∀ e ∈ L,
      (pyContains e.1 "sponsored" && pyContains e.1 "ppc") = false ∧
      (pyContains e.1 "refund" && pyContains e.1 "cost") = false ∧
      ∀ dfCol, dfMap.lookup e.1 = some dfCol → dfCol ≠ k₀) :
    (L.foldl (mappingStep dfMap) acc).lookup k₀ = acc.lookup k₀ := by
  induction L generalizing acc with
  | nil => rfl
  | cons e t ih =>
    rcases hL e (List.mem_cons_self _ _) with ⟨h₁, h₂, h₃⟩
    rw [List.foldl_cons, ih _ (fun f hf => hL f (List.mem_cons_of_mem _ hf)),
      mappingStep_lookup_preserve dfMap acc e k₀ h₁ h₂ h₃]

/-- The split of the standard-column map around its sponsored entry. -/
theorem stdColMap_split :
    stdColMap =
      [("product", "Product"), ("asin", "ASIN"), ("date", "Date"), ("sku", "SKU"),
       ("units", "Units"), ("refunds", "Refunds"), ("sales", "Sales"),
       ("promo", "Promo"), ("ads", "Ads")] ++
      ("sponsored products (ppc)", "Sponsored products (PPC)") ::
      [("% refunds", "% Refunds"), ("refund сost", "Refund сost"),
       ("amazon fees", "Amazon fees"), ("cost of goods", "Cost of Goods"),
       ("gross profit", "Gross profit"), ("net profit", "Net profit"),
       ("estimated payout", "Estimated payout"), ("real acos", "Real ACOS"),
       ("sessions", "Sessions"), ("vat", "VAT"), ("shipping", "Shipping")] := by
  decide

/-- C2 amended: the sponsored alias works as claimed — when no raw
header equals `sponsored products (ppc)` case-insensitively, the first
raw header containing both tokens is mapped onto the sponsored
canonical field.  The refund half of the claim fails: the refund alias
is unreachable, so a raw header is mapped onto the canonical
`Refund сost` field ONLY by exact case-insensitive equality with that
(Cyrillic-spelled) name; the mapping is a function of the header list,
hence deterministic. -/
theorem column_mapping_amended (df : DataFrame) :
    (∀ q, (sbDfMap df).lookup (pyLower "Sponsored products (PPC)") = none →
      (sbDfMap df).find?
          (fun r => pyContains r.1 "sponsored" && pyContains r.1 "ppc") = some q →
      (columnMapping (sbDfMap df)).lookup q.2 = some "Sponsored products (PPC)") ∧
    (∀ k v, (k, v) ∈ columnMapping (sbDfMap df) → v = "Refund сost" →
      (sbDfMap df).lookup (pyLower "Refund сost") = some k) := by
  constructor
  · intro q hex hfind
    have hqmem : q ∈ sbDfMap df := List.mem_of_find?_eq_some hfind
    have hqpred := List.find?_some hfind
    have hqinv : q.1 = pyLower q.2 := sbDfMap_inv df q hqmem
    have hguards : ∀ x ∈
        [(("% refunds" : String), ("% Refunds" : String)), ("refund сost", "Refund сost"),
         ("amazon fees", "Amazon fees"), ("cost of goods", "Cost of Goods"),
         ("gross profit", "Gross profit"), ("net profit", "Net profit"),
         ("estimated payout", "Estimated payout"), ("real acos", "Real ACOS"),
         ("sessions", "Sessions"), ("vat", "VAT"), ("shipping", "Shipping")],
        (pyContains x.1 "sponsored" && pyContains x.1 "ppc") = false ∧
        (pyContains x.1 "refund" && pyContains x.1 "cost") = false := by
      decide
    have htail : ∀ e ∈
        [(("% refunds" : String), ("% Refunds" : String)), ("refund сost", "Refund сost"),
         ("amazon fees", "Amazon fees"), ("cost of goods", "Cost of Goods"),
         ("gross profit", "Gross profit"), ("net profit", "Net profit"),
         ("estimated payout", "Estimated payout"), ("real acos", "Real ACOS"),
         ("sessions", "Sessions"), ("vat", "VAT"), ("shipping", "Shipping")],
        (pyContains e.1 "sponsored" && pyContains e.1 "ppc") = false ∧
        (pyContains e.1 "refund" && pyContains e.1 "cost") = false ∧
        ∀ dfCol, (sbDfMap df).lookup e.1 = some dfCol → dfCol ≠ q.2 := by
      intro e he
      refine ⟨(hguards e he).1, (hguards e he).2, ?_⟩
      intro dfCol hlk hc
      have hmem := lookup_mem hlk
      have hinv := sbDfMap_inv df _ hmem
      have he1 : e.1 = q.1 := by rw [hinv, hc, ← hqinv]
      have hsp₁ : (pyContains e.1 "sponsored" && pyContains e.1 "ppc") = true := by
        rw [he1]
        exact hqpred
      exact absurd (hsp₁.symm.trans (hguards e he).1) (by decide)
    unfold columnMapping
    rw [stdColMap_split, List.foldl_append, List.foldl_cons,
      foldl_mappingStep_preserve _ _ _ _ htail]
    unfold mappingStep
    have hex' : (sbDfMap df).lookup "sponsored products (ppc)" = none := by
      have hl : pyLower "Sponsored products (PPC)" = "sponsored products (ppc)" := by
        decide
      rw [← hl]
      exact hex
    simp only [hex', hfind]
    rw [if_pos (by decide), lookup_dictUpsert, if_pos rfl]
  · intro k v hmem hv
    rcases columnMapping_origin (sbDfMap df) (k, v) hmem with ⟨_, horig | hspon⟩
    · rw [← hv]
      exact horig
    · have hv2 : v = "Sponsored products (PPC)" := hspon.1
      rw [hv] at hv2
      exact absurd hv2 (by decide)

/-! ## C1: output column set -/

theorem hasCol_iff_filter_pos (X : List (String × List Cell)) (n : String) :
    hasCol X n = true ↔ 0 < (X.filter fun p => p.1 == n).length := by
  unfold hasCol
  rw [List.any_eq_true, ← List.countP_eq_length_filter, List.countP_pos]

theorem hasCol_false_filter_nil (X : List (String × List Cell)) (n : String)
    (h : hasCol X n = false) : (X.filter fun p => p.1 == n).length = 0 := by
  by_contra hc
  have : hasCol X n = true := (hasCol_iff_filter_pos X n).mpr (by omega)
  rw [h] at this
  exact absurd this (by decide)

theorem filter_beq_length (l : List String) (hnd : l.Nodup) (c : String) :
    (l.filter fun x => x == c).length = if c ∈ l then 1 else 0 := by
  induction l with
  | nil => simp
  | cons a t ih =>
    rcases List.nodup_cons.mp hnd with ⟨hat, ht⟩
    by_cases ha : a = c
    · subst ha
      rw [List.filter_cons_of_pos (by simp), if_pos (List.mem_cons_self _ _)]
      have hz : (t.filter fun x => x == a).length = 0 := by
        rw [← List.countP_eq_length_filter, List.countP_eq_zero]
        intro b hb hbc
        exact hat ((by simpa using hbc : b = a) ▸ hb)
      simp [hz]
    · rw [List.filter_cons_of_neg (by simpa using ha), ih ht]
      by_cases hct : c ∈ t
      · rw [if_pos hct, if_pos (List.mem_cons_of_mem _ hct)]
      · rw [if_neg hct, if_neg (by
          intro hc
          rcases List.mem_cons.mp hc with hc | hc
          · exact ha hc.symm
          · exact hct hc)]

/-- Appending the nan-filled missing canonical columns makes every
canonical label appear exactly once, provided it appeared at most once
before. -/
theorem append_missing_count (X : List (String × List Cell)) (req : List String)
    (nrows : Nat) (hreq : req.Nodup) (c : String) (hc : c ∈ req)
    (hA : (X.filter fun p => p.1 == c).length ≤ 1) :
    ((X ++ (req.filter fun d => !hasCol X d).map
        (fun d => (d, List.replicate nrows Cell.na))).filter
      fun p => p.1 == c).length = 1 := by
  rw [List.filter_append, List.length_append]
  have hmap : ((req.filter fun d => !hasCol X d).map
      (fun d => (d, List.replicate nrows Cell.na))).filter (fun p => p.1 == c)
        = ((req.filter fun d => !hasCol X d).filter fun d => d == c).map
            (fun d => (d, List.replicate nrows Cell.na)) := by
    rw [List.filter_map]
    rfl
  rw [hmap, List.length_map]
  have hfnd : (req.filter fun d => !hasCol X d).Nodup := hreq.filter _
  rw [filter_beq_length _ hfnd c]
  cases hcol : hasCol X c with
  | true =>
    have hpos := (hasCol_iff_filter_pos X c).mp hcol
    rw [if_neg (by
      intro hmem
      have := (List.mem_filter.mp hmem).2
      rw [hcol] at this
      exact absurd this (by decide))]
    omega
  | false =>
    rw [hasCol_false_filter_nil X c hcol,
      if_pos (List.mem_filter.mpr ⟨hc, by rw [hcol]; rfl⟩)]

theorem filter_label_len_le_one (X : List (String × List Cell))
    (hnd : (X.map Prod.fst).Nodup) (c : String) :
    (X.filter fun p => p.1 == c).length ≤ 1 := by
  rw [← List.countP_eq_length_filter]
  apply countP_le_one_of_inj X _ (List.Nodup.of_map _ hnd)
  intro a ha b hb hpa hpb
  have ha1 : a.1 = c := by simpa using hpa
  have hb1 : b.1 = c := by simpa using hpb
  exact List.inj_on_of_nodup_map hnd ha hb (by rw [ha1, hb1])

theorem stdColMap_eq_map :
    stdColMap = standardColumns.map fun c => (pyLower c, c) := by
  decide

/-- The df-side map of a frame, expressed over the stripped label
list. -/
theorem sbDfMap_eq (df : DataFrame) :
    sbDfMap df = buildDict (((strippedCols df).map Prod.fst).map
      fun n => (pyLower n, n)) := by
  unfold sbDfMap
  rw [List.map_map]
  rfl

/-- Under case-insensitive distinctness of the (stripped) raw labels,
at most one raw column is renamed onto each canonical label. -/
theorem sbRenamed_count_le_one (df : DataFrame)
    (hnd : (df.cols.map fun p => pyLower (pyStrip p.1)).Nodup)
    (s : String) (hs : s ∈ standardColumns) :
    ((sbRenamed df).filter fun p => p.1 == s).length ≤ 1 := by
  have hNLlow : (((strippedCols df).map Prod.fst).map pyLower)
      = df.cols.map fun p => pyLower (pyStrip p.1) := by
    unfold strippedCols
    rw [List.map_map, List.map_map]
    rfl
  have hlownd : (((strippedCols df).map Prod.fst).map pyLower).Nodup := by
    rw [hNLlow]
    exact hnd
  have hNLnd : ((strippedCols df).map Prod.fst).Nodup := List.Nodup.of_map _ hlownd
  rw [← List.countP_eq_length_filter]
  unfold sbRenamed
  rw [List.countP_map]
  have hview : List.countP
      ((fun p : String × List Cell => p.1 == s) ∘ fun p : String × List Cell =>
        (((columnMapping (sbDfMap df)).lookup p.1).getD p.1, p.2)) (strippedCols df)
      = List.countP (fun n => ((columnMapping (sbDfMap df)).lookup n).getD n == s)
          ((strippedCols df).map Prod.fst) := by
    rw [List.countP_map]
    rfl
  rw [hview]
  apply countP_le_one_of_inj _ _ hNLnd
  intro a ha b hb hpa hpb
  have hra : ((columnMapping (sbDfMap df)).lookup a).getD a = s := by simpa using hpa
  have hrb : ((columnMapping (sbDfMap df)).lookup b).getD b = s := by simpa using hpb
  -- the lowered-name injectivity on raw labels
  have hinjNL : ∀ n ∈ (strippedCols df).map Prod.fst, ∀ n' ∈ (strippedCols df).map Prod.fst,
      pyLower n = pyLower n' → n = n' := by
    intro n hn n' hn' hlow
    exact List.inj_on_of_nodup_map hlownd hn hn' hlow
  -- exact lookup of a present raw label
  have hlkup : ∀ n ∈ (strippedCols df).map Prod.fst,
      (sbDfMap df).lookup (pyLower n) = some n := by
    intro n hn
    rw [sbDfMap_eq]
    exact buildDict_lower_lookup _ n hn fun n' hn' hl => hinjNL n' hn' n hn hl
  -- a key of the final mapping stays a key
  have hkeysome : ∀ n ∈ (strippedCols df).map Prod.fst, n ∈ standardColumns →
      (((columnMapping (sbDfMap df)).lookup n).isSome) := by
    intro n hn hnstd
    refine columnMapping_lookup_isSome (sbDfMap df) (pyLower n, n) ?_ n (hlkup n hn)
    rw [stdColMap_eq_map]
    exact List.mem_map.mpr ⟨n, hnstd, rfl⟩
  cases hla : (columnMapping (sbDfMap df)).lookup a with
  | none =>
    cases hlb : (columnMapping (sbDfMap df)).lookup b with
    | none =>
      rw [hla] at hra
      rw [hlb] at hrb
      simp only [Option.getD_none] at hra hrb
      rw [hra, hrb]
    | some vb =>
      rw [hla] at hra
      rw [hlb] at hrb
      simp only [Option.getD_none] at hra
      simp only [Option.getD_some] at hrb
      rcases columnMapping_origin (sbDfMap df) (b, vb) (lookup_mem hlb) with ⟨hvstd, _⟩
      have hvbstd : vb ∈ standardColumns := hvstd
      have hastd : a ∈ standardColumns := by rw [hra, ← hrb]; exact hvbstd
      have hsome := hkeysome a ha hastd
      rw [hla] at hsome
      exact absurd hsome (by decide)
  | some va =>
    cases hlb : (columnMapping (sbDfMap df)).lookup b with
    | none =>
      rw [hla] at hra
      rw [hlb] at hrb
      simp only [Option.getD_some] at hra
      simp only [Option.getD_none] at hrb
      rcases columnMapping_origin (sbDfMap df) (a, va) (lookup_mem hla) with ⟨hvstd, _⟩
      have hvastd : va ∈ standardColumns := hvstd
      have hbstd : b ∈ standardColumns := by rw [hrb, ← hra]; exact hvastd
      have hsome := hkeysome b hb hbstd
      rw [hlb] at hsome
      exact absurd hsome (by decide)
    | some vb =>
      rw [hla] at hra
      rw [hlb] at hrb
      simp only [Option.getD_some] at hra hrb
      have hvab : va = vb := by rw [hra, hrb]
      rcases columnMapping_origin (sbDfMap df) (a, va) (lookup_mem hla)
        with ⟨_, horia | horia⟩ <;>
        rcases columnMapping_origin (sbDfMap df) (b, vb) (lookup_mem hlb)
          with ⟨_, horib | horib⟩
      · have h₁ : (sbDfMap df).lookup (pyLower va) = some a := horia
        have h₂ : (sbDfMap df).lookup (pyLower vb) = some b := horib
        rw [hvab, h₂] at h₁
        exact ((Option.some.injEq _ _).mp h₁).symm
      · have hsp : vb = "Sponsored products (PPC)" := horib.1
        have h₁ : (sbDfMap df).lookup (pyLower va) = some a := horia
        rw [hvab, hsp] at h₁
        rw [horib.2.1] at h₁
        exact absurd h₁ (by simp)
      · have hsp : va = "Sponsored products (PPC)" := horia.1
        have h₂ : (sbDfMap df).lookup (pyLower vb) = some b := horib
        rw [← hvab, hsp] at h₂
        rw [horia.2.1] at h₂
        exact absurd h₂ (by simp)
      · rcases horia.2.2 with ⟨q₁, hq₁, hq₁2⟩
        rcases horib.2.2 with ⟨q₂, hq₂, hq₂2⟩
        rw [hq₁] at hq₂
        have hq : q₁ = q₂ := (Option.some.injEq _ _).mp hq₂
        have ha2 : q₁.2 = a := hq₁2
        have hb2 : q₂.2 = b := hq₂2
        rw [← ha2, ← hb2, hq]

/-- Under case-insensitive distinctness of the stripped raw labels,
`_standardize_columns` outputs exactly the canonical labels in
canonical order. -/
theorem standardize_columns_names (df : DataFrame)
    (hnd : (df.cols.map fun p => pyLower (pyStrip p.1)).Nodup) :
    (standardizeColumns df).names = standardColumns := by
  have hstdnd : standardColumns.Nodup := by decide
  have havnd : (sbAvailable df).Nodup := hstdnd.filter _
  have hcnt : ∀ s ∈ standardColumns,
      ((sbWithMissing df).filter fun p => p.1 == s).length = 1 := by
    intro s hs
    unfold sbWithMissing
    apply append_missing_count _ _ _ hstdnd s hs
    rw [filter_selectCols _ _ _ havnd]
    split
    · exact sbRenamed_count_le_one df hnd s hs
    · simp
  exact selectCols_names _ _ hcnt

/-- The canonical fields with no mapped raw column come out filled
with `pd.NA` for every row. -/
theorem standardize_columns_missing_na (df : DataFrame) (s : String)
    (hs : s ∈ standardColumns) (hmiss : hasCol (sbRenamed df) s = false) :
    (s, List.replicate df.nrows Cell.na) ∈ (standardizeColumns df).cols := by
  have hfil : hasCol (selectCols (sbRenamed df) (sbAvailable df)) s = false := by
    cases hh : hasCol (selectCols (sbRenamed df) (sbAvailable df)) s with
    | false => rfl
    | true =>
      rcases List.any_eq_true.mp hh with ⟨p, hp, hps⟩
      rcases mem_selectCols.mp hp with ⟨_, hpren⟩
      have : hasCol (sbRenamed df) s = true := List.any_eq_true.mpr ⟨p, hpren, hps⟩
      rw [hmiss] at this
      exact absurd this (by decide)
  have hmem : (s, List.replicate df.nrows Cell.na) ∈ sbWithMissing df := by
    unfold sbWithMissing
    refine List.mem_append.mpr (Or.inr ?_)
    refine List.mem_map.mpr ⟨s, ?_, rfl⟩
    refine List.mem_filter.mpr ⟨hs, ?_⟩
    rw [hfil]
    rfl
  exact mem_selectCols.mpr ⟨hs, hmem⟩

/-- The label lists survive `dspPrep` as a sublist of the input's. -/
theorem dspPrep_names_sublist (df : DataFrame) :
    ((dspPrep df).2.map Prod.fst).Sublist (df.cols.map Prod.fst) := by
  have hbase : ((dspBaseCols df).map Prod.fst).Sublist (df.cols.map Prod.fst) := by
    unfold dspBaseCols
    split
    · exact List.Sublist.map _ (List.filter_sublist _)
    · exact List.Sublist.refl _
  unfold dspPrep
  split
  · simp only [List.map_map]
    exact hbase
  · exact hbase

/-- Under distinct input labels and no pre-existing `Date` column, the
DSP transform outputs exactly the canonical labels in order. -/
theorem dsp_output_names (df : DataFrame) (fd : Option PyDate) (out : DataFrame)
    (hok : dspProcessSingleFileContent df fd = .ok out)
    (hnd : (df.cols.map Prod.fst).Nodup)
    (hdate : hasCol df.cols "Date" = false) :
    out.names = requiredColumnsDSP := by
  have hsub := dspPrep_names_sublist df
  have hnd₁ : ((dspPrep df).2.map Prod.fst).Nodup := hsub.nodup hnd
  have hdate₁ : hasCol (dspPrep df).2 "Date" = false := by
    cases hh : hasCol (dspPrep df).2 "Date" with
    | false => rfl
    | true =>
      rcases List.any_eq_true.mp hh with ⟨p, hp, hps⟩
      have hmem : p.1 ∈ (dspPrep df).2.map Prod.fst := List.mem_map.mpr ⟨p, hp, rfl⟩
      have hmem₂ : p.1 ∈ df.cols.map Prod.fst := hsub.mem hmem
      rcases List.mem_map.mp hmem₂ with ⟨q, hq, hqe⟩
      have : hasCol df.cols "Date" = true :=
        List.any_eq_true.mpr ⟨q, hq, by rw [hqe]; exact hps⟩
      rw [hdate] at this
      exact absurd this (by decide)
  unfold dspProcessSingleFileContent at hok
  split at hok
  · exact absurd hok (by simp)
  split at hok
  · exact absurd hok (by simp)
  split at hok
  · exact absurd hok (by simp)
  split at hok
  · exact absurd hok (by simp)
  split at hok
  · exact absurd hok (by simp)
  rename_i h₁ h₂ h₃ h₄ cv hcv
  rw [Except.ok.injEq] at hok
  subst hok
  have hasin : hasCol (dspPrep df).2 "ASIN" = false := by
    cases hx : hasCol (dspPrep df).2 "ASIN" with
    | false => rfl
    | true => exact absurd hx h₃
  -- count bound inside the assembled pre-selection frame
  apply selectCols_names
  intro c hc
  unfold dspAssemble
  set asinCol := cv.map deriveASIN with hac
  set dateCol := List.replicate (dspPrep df).1
    (match fd with | some d => Cell.date d | none => Cell.na) with hdc
  set cols₂ : List (String × List Cell) := ("ASIN", asinCol) :: (dspPrep df).2 with hc₂
  set cols₃ := (match cols₂.findIdx? (fun p => p.1 == "Creative") with
    | some ci => cols₂.take (ci + 1) ++ [("Date", dateCol)] ++ cols₂.drop (ci + 1)
    | none => cols₂ ++ [("Date", dateCol)]) with hc₃
  apply append_missing_count _ _ _ (by decide) c hc
  -- (cols₃.filter (·.1 == c)).length ≤ 1
  have hc₃len : (cols₃.filter fun p => p.1 == c).length
      = (cols₂.filter fun p => p.1 == c).length
        + (([(("Date" : String), dateCol)]).filter fun p => p.1 == c).length := by
    rw [hc₃]
    cases hfi : cols₂.findIdx? (fun p => p.1 == "Creative") with
    | none =>
      rw [List.filter_append, List.length_append]
    | some ci =>
      rw [List.filter_append, List.filter_append, List.length_append,
        List.length_append]
      conv_rhs => rw [show cols₂ = cols₂.take (ci + 1) ++ cols₂.drop (ci + 1) from
        (List.take_append_drop _ _).symm]
      rw [List.filter_append, List.length_append]
      omega
  rw [hc₃len]
  have hdatec : (([(("Date" : String), dateCol)]).filter fun p => p.1 == c).length
      = if c = "Date" then 1 else 0 := by
    by_cases hcd : c = "Date"
    · rw [if_pos hcd, List.filter_cons_of_pos (by simp [hcd])]
      rfl
    · rw [if_neg hcd, List.filter_cons_of_neg
        (by simp; exact fun hc' => hcd hc'.symm)]
      rfl
  have hc₂len : (cols₂.filter fun p => p.1 == c).length
      = (if c = "ASIN" then 1 else 0) + (((dspPrep df).2.filter fun p => p.1 == c).length) := by
    rw [hc₂]
    by_cases hca : c = "ASIN"
    · rw [if_pos hca, List.filter_cons_of_pos (by simp [hca])]
      rw [List.length_cons]
      omega
    · rw [if_neg hca, List.filter_cons_of_neg
        (by simp; exact fun hc' => hca hc'.symm)]
      omega
  rw [hc₂len, hdatec]
  by_cases hca : c = "ASIN"
  · rw [if_pos hca, if_neg (by rw [hca]; decide)]
    have := hasCol_false_filter_nil (dspPrep df).2 c (by rw [hca]; exact hasin)
    omega
  · rw [if_neg hca]
    by_cases hcd : c = "Date"
    · rw [if_pos hcd]
      have := hasCol_false_filter_nil (dspPrep df).2 c (by rw [hcd]; exact hdate₁)
      omega
    · rw [if_neg hcd]
      have := filter_label_len_le_one (dspPrep df).2 hnd₁ c
      omega

/-- C1 counterexample: an input whose two raw headers `Units` and
`units` collide case-insensitively.  Both are renamed onto the
canonical `Units` label, the duplicate-label selection keeps BOTH, and
the output has 22 columns — not the canonical 21-column list. -/
theorem normalize_canonical_counterexample :
    (standardizeColumns ⟨1, [("Units", [Cell.str "a"]), ("units", [Cell.str "b"])]⟩).names
        ≠ standardColumns ∧
    (standardizeColumns ⟨1, [("Units", [Cell.str "a"]), ("units", [Cell.str "b"])]⟩).cols.length
        = 22 ∧
    standardColumns.length = 21 := by
  refine ⟨by decide, by decide, by decide⟩

/-- C1 amended: the normalization invariant holds for every input
whose (stripped) raw labels are pairwise case-insensitively distinct —
which every well-formed export satisfies — and, for DSP, whose input
carries no pre-existing `Date` column; canonical fields with no mapped
source column are filled with null for every row.  (The counterexample
shows the unrestricted claim is false: case-colliding labels duplicate
a canonical column.) -/
theorem normalize_canonical_columns_amended :
    (∀ df : DataFrame, (df.cols.map fun p => pyLower (pyStrip p.1)).Nodup →
      (standardizeColumns df).names = standardColumns) ∧
    (∀ df : DataFrame, ∀ s ∈ standardColumns, hasCol (sbRenamed df) s = false →
      (s, List.replicate df.nrows Cell.na) ∈ (standardizeColumns df).cols) ∧
    (∀ (df : DataFrame) (fd : Option PyDate) (out : DataFrame),
      dspProcessSingleFileContent df fd = .ok out →
      (df.cols.map Prod.fst).Nodup → hasCol df.cols "Date" = false →
      out.names = requiredColumnsDSP) :=
  ⟨standardize_columns_names,
   fun df s hs hmiss => standardize_columns_missing_na df s hs hmiss,
   dsp_output_names⟩

/-- C1 amended witness: a mixed-case frame normalizes to exactly the
21 canonical columns; its unmapped canonical fields are null-filled;
and a DSP frame with distinct labels comes out with exactly the 39
canonical columns. -/
theorem normalize_canonical_columns_amended_witness :
    (standardizeColumns ⟨1, [("product", [Cell.str "p"]),
        ("Sponsored Brands PPC", [Cell.str "3"])]⟩).names = standardColumns ∧
    ("SKU", List.replicate 1 Cell.na) ∈
      (standardizeColumns ⟨1, [("product", [Cell.str "p"]),
        ("Sponsored Brands PPC", [Cell.str "3"])]⟩).cols ∧
    ((dspProcessSingleFileContent ⟨2, [("Creative", [Cell.str "a", Cell.str "b"])]⟩
        none).toOption.getD ⟨0, []⟩).names = requiredColumnsDSP :=
  ⟨normalize_canonical_columns_amended.1
      ⟨1, [("product", [Cell.str "p"]), ("Sponsored Brands PPC", [Cell.str "3"])]⟩
      (by decide),
   normalize_canonical_columns_amended.2.1
      ⟨1, [("product", [Cell.str "p"]), ("Sponsored Brands PPC", [Cell.str "3"])]⟩
      "SKU" (by decide) (by decide),
   normalize_canonical_columns_amended.2.2
      ⟨2, [("Creative", [Cell.str "a", Cell.str "b"])]⟩ none _ (by rfl)
      (by decide) (by decide)⟩

/-- C2 amended witness: the raw header `Sponsored Brands PPC` (no
exact match present) is mapped onto the sponsored canonical field, and
the one header that does reach the refund canonical field is an exact
case-insensitive match for the Cyrillic-spelled canonical name. -/
theorem column_mapping_amended_witness :
    (columnMapping (sbDfMap ⟨1, [("Sponsored Brands PPC", [Cell.str "3"])]⟩)).lookup
        "Sponsored Brands PPC" = some "Sponsored products (PPC)" ∧
    (sbDfMap ⟨1, [("Refund сost", [Cell.str "5"])]⟩).lookup (pyLower "Refund сost")
        = some "Refund сost" :=
  ⟨(column_mapping_amended ⟨1, [("Sponsored Brands PPC", [Cell.str "3"])]⟩).1
      ("sponsored brands ppc", "Sponsored Brands PPC") (by decide) (by decide),
   (column_mapping_amended ⟨1, [("Refund сost", [Cell.str "5"])]⟩).2
      "Refund сost" "Refund сost" (by decide) rfl⟩

/-! ## C9: idempotence of normalization -/

theorem standardize_names_std (df : DataFrame) :
    ∀ p ∈ (standardizeColumns df).cols, p.1 ∈ standardColumns := by
  intro p hp
  exact (mem_selectCols.mp hp).1

theorem standardize_hasCol_std (df : DataFrame) :
    ∀ s ∈ standardColumns, hasCol (standardizeColumns df).cols s = true := by
  intro s hs
  have hmem : ∃ p ∈ sbWithMissing df, p.1 = s := by
    unfold sbWithMissing
    cases hfc : hasCol (selectCols (sbRenamed df) (sbAvailable df)) s with
    | true =>
      rcases List.any_eq_true.mp hfc with ⟨p, hp, hps⟩
      exact ⟨p, List.mem_append.mpr (Or.inl hp), by simpa using hps⟩
    | false =>
      refine ⟨(s, List.replicate df.nrows Cell.na), List.mem_append.mpr (Or.inr ?_), rfl⟩
      refine List.mem_map.mpr ⟨s, List.mem_filter.mpr ⟨hs, ?_⟩, rfl⟩
      rw [hfc]
      rfl
  rcases hmem with ⟨p, hp, hps⟩
  apply List.any_eq_true.mpr
  refine ⟨p, ?_, by simp [hps]⟩
  exact mem_selectCols.mpr ⟨hps ▸ hs, hp⟩

theorem columnMapping_diag_aux (dfMap : List (String × String)) :
    ∀ (L acc : List (String × String)),
      (∀ e ∈ L, dfMap.lookup e.1 = some e.2) → (∀ p ∈ acc, p.1 = p.2) →
      ∀ p ∈ L.foldl (mappingStep dfMap) acc, p.1 = p.2 := by
  intro L
  induction L with
  | nil => exact fun acc _ hacc => hacc
  | cons e t ih =>
    intro acc hL hacc
    rw [List.foldl_cons]
    refine ih _ (fun f hf => hL f (List.mem_cons_of_mem _ hf)) ?_
    intro p hp
    unfold mappingStep at hp
    rw [hL e (List.mem_cons_self _ _)] at hp
    rcases mem_dictUpsert hp with hpe | ⟨hpm, _⟩
    · rw [hpe]
    · exact hacc p hpm

/-- When every canonical lowered name resolves exactly (as it does on
an already-normalized frame), the column mapping is the identity on
its keys. -/
theorem columnMapping_diag (dfMap : List (String × String))
    (hall : ∀ e ∈ stdColMap, dfMap.lookup e.1 = some e.2) :
    ∀ p ∈ columnMapping dfMap, p.1 = p.2 :=
  columnMapping_diag_aux dfMap stdColMap [] hall
    (fun p hp => absurd hp (List.not_mem_nil p))

/-- C9: `_standardize_columns` is idempotent — normalizing an
already-normalized table returns it bit-identically, for EVERY input
frame (no distinctness hypothesis needed). -/
theorem standardize_columns_idempotent (df : DataFrame) :
    standardizeColumns (standardizeColumns df) = standardizeColumns df := by
  set O := standardizeColumns df with hO
  have hstdnd : standardColumns.Nodup := by decide
  have hlowinj : ∀ n ∈ standardColumns, ∀ n' ∈ standardColumns,
      pyLower n = pyLower n' → n = n' := by
    intro n hn n' hn' h
    exact List.inj_on_of_nodup_map (by decide : (standardColumns.map pyLower).Nodup)
      hn hn' h
  have hP1 : ∀ p ∈ O.cols, p.1 ∈ standardColumns := standardize_names_std df
  have hP2 : ∀ s ∈ standardColumns, hasCol O.cols s = true := standardize_hasCol_std df
  -- every output label is in the output's own name list
  have hmemname : ∀ s ∈ standardColumns, s ∈ O.cols.map Prod.fst := by
    intro s hs
    rcases List.any_eq_true.mp (hP2 s hs) with ⟨p, hp, hps⟩
    exact List.mem_map.mpr ⟨p, hp, by simpa using hps⟩
  -- (a) stripping is the identity
  have hstrip : strippedCols O = O.cols := by
    unfold strippedCols
    rw [List.map_congr_left (fun p hp => ?_)]
    · exact List.map_id O.cols
    · have : pyStrip p.1 = p.1 :=
        (by decide : ∀ s ∈ standardColumns, pyStrip s = s) p.1 (hP1 p hp)
      show (pyStrip p.1, p.2) = p
      rw [this]
  -- (b) lowered lookups resolve to the name itself
  have hlk : ∀ s ∈ O.cols.map Prod.fst, (sbDfMap O).lookup (pyLower s) = some s := by
    intro s hsO
    rw [sbDfMap_eq, hstrip]
    apply buildDict_lower_lookup _ s hsO
    intro n hn hl
    rcases List.mem_map.mp hn with ⟨p, hp, hpe⟩
    rcases List.mem_map.mp hsO with ⟨q, hq, hqe⟩
    exact hlowinj n (hpe ▸ hP1 p hp) s (hqe ▸ hP1 q hq) hl
  -- (c) every standard entry resolves exactly
  have hall : ∀ e ∈ stdColMap, (sbDfMap O).lookup e.1 = some e.2 := by
    intro e he
    rw [stdColMap_eq_map] at he
    rcases List.mem_map.mp he with ⟨c, hc, hce⟩
    rw [← hce]
    exact hlk c (hmemname c hc)
  -- (d) the mapping is diagonal, so renaming is the identity
  have hdiag := columnMapping_diag (sbDfMap O) hall
  have hren : sbRenamed O = O.cols := by
    unfold sbRenamed
    rw [hstrip, List.map_congr_left (fun p hp => ?_)]
    · exact List.map_id O.cols
    · show (((columnMapping (sbDfMap O)).lookup p.1).getD p.1, p.2) = p
      cases hl : (columnMapping (sbDfMap O)).lookup p.1 with
      | none => rfl
      | some v =>
        have : p.1 = v := hdiag (p.1, v) (lookup_mem hl)
        rw [Option.getD_some, ← this]
  -- (e) every canonical column is available
  have hav : sbAvailable O = standardColumns := by
    unfold sbAvailable
    apply List.filter_eq_self.mpr
    intro c hc
    rw [hren]
    exact hP2 c hc
  -- (f) nothing is missing
  have hfilav : selectCols (sbRenamed O) (sbAvailable O)
      = selectCols O.cols standardColumns := by
    rw [hren, hav]
  have hnomiss : standardColumns.filter
      (fun c => !hasCol (selectCols (sbRenamed O) (sbAvailable O)) c) = [] := by
    apply List.filter_eq_nil_iff.mpr
    intro c hc
    rw [hfilav]
    have hpos : hasCol (selectCols O.cols standardColumns) c = true := by
      rcases List.any_eq_true.mp (hP2 c hc) with ⟨p, hp, hps⟩
      apply List.any_eq_true.mpr
      refine ⟨p, mem_selectCols.mpr ⟨?_, hp⟩, hps⟩
      have : p.1 = c := by simpa using hps
      exact this ▸ hc
    rw [hpos]
    decide
  have hwm : sbWithMissing O = selectCols O.cols standardColumns := by
    unfold sbWithMissing
    dsimp only
    rw [hnomiss, List.map_nil, List.append_nil, hfilav]
  -- (g) re-selecting is the identity on the first pass's output
  have hOcols : O.cols = selectCols (sbWithMissing df) standardColumns := rfl
  have hfinal : selectCols O.cols standardColumns = O.cols := by
    rw [hOcols, selectCols_idem _ _ hstdnd]
  show (⟨O.nrows, selectCols (sbWithMissing O) standardColumns⟩ : DataFrame) = O
  rw [hwm, selectCols_idem O.cols standardColumns hstdnd, hfinal]

end MST
